import Mathlib

/-!
Verification of the natural-language specification of `src/move-files.py`
against a shallow embedding of that program.

The program is a one-shot source-tree reorganizer: it moves `.ts` files
according to a mapping and rewrites every relative import
(`from "<relative path>.js"`) so that the module graph still resolves.

Modelling conventions
=====================

* A Python string is modelled as `Str := List Char`.
* An absolute, normalized POSIX path (`os.path.normpath` output, as produced
  on line 33 and lines 24-26 of the source for every path the program works
  with) is modelled as `Path := List Str`, the list of its `/`-separated
  segments; the root `/` is `[]`.  A normalized absolute path contains no
  empty, `.` or `..` segments, which is what `wfSeg`/`wfPath` below state.
* `os.path.dirname` on such a path drops the last segment.
* `os.path.normpath(os.path.join(d, r))` for an absolute `d` and relative `r`
  concatenates the segment lists and then processes `.`/`..`/empty segments
  left to right (`normAbs` below), exactly as `posixpath.normpath` does on an
  absolute argument (`..` at the root is dropped).
* `os.path.relpath(to, start)` for normalized absolute arguments splits both
  into segments, takes the longest common segment prefix, and produces
  `[".."] * (len(start) - i) ++ to[i:]`, joined with `/`, or `"."` when that
  list is empty.  This is exactly `posixpath.relpath`.
* `re.sub(r'\.js$', '.ts', s)` replaces a trailing `".js"` by `".ts"`
  (`swapSuffix`).  (Python's `$` would also match before a trailing newline;
  no string fed to these substitutions by the program ends in a newline: the
  regex group always ends in `.js`, and the `relpath` output ends in a `..`,
  `.` or `.ts` segment, so the two readings agree on every reachable input.)
* `.replace('\\', '/')` with one-character arguments is a character map
  (`replaceBS`).
-/

namespace MoveFiles

abbrev Str := List Char

abbrev Path := List Str

/-- A well-formed segment of a normalized absolute path: nonempty, not a dot
segment, and free of the separator characters the program manipulates
(`/` cannot occur inside a POSIX segment; `\` and `"` are excluded because the
tool is meant for platform-independent path strings inside import quotes). -/
def wfSeg (s : Str) : Prop :=
  s ≠ [] ∧ s ≠ ['.'] ∧ s ≠ ['.', '.'] ∧ '/' ∉ s ∧ '\\' ∉ s ∧ '"' ∉ s

instance (s : Str) : Decidable (wfSeg s) := by
  unfold wfSeg; infer_instance

/-- A well-formed normalized absolute path: every segment is well-formed. -/
def wfPath (p : Path) : Prop := ∀ s ∈ p, wfSeg s

instance (p : Path) : Decidable (wfPath p) := by
  unfold wfPath; infer_instance

/-- A segment that survives `normpath` processing unchanged. -/
def cleanSeg (s : Str) : Prop := s ≠ [] ∧ s ≠ ['.'] ∧ s ≠ ['.', '.']

instance (s : Str) : Decidable (cleanSeg s) := by
  unfold cleanSeg; infer_instance

/-- One step of `posixpath.normpath` on an absolute path: empty and `.`
segments are dropped, `..` pops the last accumulated segment (at the root it
is simply dropped). -/
def normStep (acc : Path) (s : Str) : Path :=
  if s = [] ∨ s = ['.'] then acc
  else if s = ['.', '.'] then acc.dropLast
  else acc ++ [s]

/-- `posixpath.normpath` on an absolute path, at segment level. -/
def normAbs (l : List Str) : Path := l.foldl normStep []

/-- `os.path.dirname` on an absolute path. -/
def dirname (p : Path) : Path := p.dropLast

/-- Python `s.split('/')` (keeps empty pieces). -/
def splitSlash : Str → List Str
  | [] => [[]]
  | c :: r =>
    if c = '/' then [] :: splitSlash r
    else
      match splitSlash r with
      | [] => [[c]]
      | h :: t => (c :: h) :: t

/-- Join segments with `/` (the relative-path rendering used by
`os.path.join(*rel_list)` and the canonical forward-slash form). -/
def render : List Str → Str
  | [] => []
  | [s] => s
  | s :: s' :: r => s ++ '/' :: render (s' :: r)

/-- `re.sub(r'\.OLD$', '.NEW', s)`: replace a trailing occurrence of `old`. -/
def swapSuffix (old new s : Str) : Str :=
  if old <:+ s then s.take (s.length - old.length) ++ new else s

/-- `s.replace('\\', '/')`: a character-wise map. -/
def replaceBS (s : Str) : Str :=
  s.map fun c => if c = '\\' then '/' else c

/-- The move mapping: an association list from normalized origin path to
normalized destination path (the Python dict built on lines 24-26; keys are
unique there, and lookup is modelled as first match). -/
abbrev Moves := List (Path × Path)

/-- First-match lookup in the move mapping (`moves.get(key)`). -/
def lookupMove (p : Path) : Moves → Option Path
  | [] => none
  | (k, v) :: r => if k = p then some v else lookupMove p r

/-- `new_path_of` (source lines 6-7): `moves.get(normpath(p), normpath(p))`.
Paths are already normalized in this embedding. -/
def new_path_of (p : Path) (moves : Moves) : Path :=
  (lookupMove p moves).getD p

/-! ### Names for the two suffixes the program swaps -/

/-- The characters of `".ts"`. -/
def tsS : Str := '.' :: 't' :: 's' :: []

/-- The characters of `".js"`. -/
def jsS : Str := '.' :: 'j' :: 's' :: []

/-- `resolve_import` (source lines 9-12): swap the `.js` suffix of the import
for `.ts`, join with the importing file's directory and normalize.
(`os.path.join` would discard the directory for an absolute second argument;
that branch is kept for faithfulness.) -/
def resolve_import (from_file : Path) (import_path : Str) : Path :=
  let ts_path := swapSuffix jsS tsS import_path
  if ts_path.head? = some '/' then normAbs (splitSlash ts_path)
  else normAbs (dirname from_file ++ splitSlash ts_path)

/-- Length of the longest common prefix of two segment lists
(`os.path.commonprefix([start_list, path_list])` inside `posixpath.relpath`). -/
def commonPrefixLen : List Str → List Str → Nat
  | a :: as, b :: bs => if a = b then commonPrefixLen as bs + 1 else 0
  | _, _ => 0

/-- The segment list `[".."] * (len(start) - i) ++ path[i:]` built by
`posixpath.relpath(to, fromDir)`. -/
def relSegs (toP fromDir : Path) : List Str :=
  let i := commonPrefixLen fromDir toP
  List.replicate (fromDir.length - i) ('.' :: '.' :: []) ++ toP.drop i

/-- `os.path.relpath(to, fromDir)` as a string: `"."` when the segment list is
empty, otherwise the segments joined with `/`. -/
def relpathStr (toP fromDir : Path) : Str :=
  let l := relSegs toP fromDir
  if l = [] then ['.'] else render l

/-- The string `make_relative` computes before the `./`-prefix test
(source lines 15-17): `re.sub(r'\.ts$', '.js',
os.path.relpath(to_file, from_dir).replace('\\', '/'))`. -/
def relBase (from_file to_file : Path) : Str :=
  swapSuffix tsS jsS (replaceBS (relpathStr to_file (dirname from_file)))

/-- `make_relative` (source lines 14-20): prefix `./` when the computed
relative string does not start with `'.'` (Python `rel.startswith('.')`). -/
def make_relative (from_file to_file : Path) : Str :=
  let rel := relBase from_file to_file
  if rel.head? = some '.' then rel else '.' :: '/' :: rel

/-!
The import-statement pattern (source line 49):
`re.sub(r'from "(\.\.?/[^"]+\.js)"', replace_import, content)`.

A match of this regex at a given position is deterministic:
* the literal `from "` must come first (`FROMQ`);
* `\.\.?/` must match `../` or `./` (greedy, `../` preferred; nothing else
  can match because `/` is a literal);
* `[^"]+\.js` followed by `"` forces the group to extend exactly to the
  first `"` after the prefix (the class `[^"]` cannot cross a quote), and the
  text up to that quote must end in `.js` and be at least 4 characters long
  (`[^"]+` needs at least one character before `\.js`);
* `re.sub` scans positions left to right and resumes after each match.
-/

/-- The literal prefix `from "` of the import pattern. -/
def FROMQ : Str := 'f' :: 'r' :: 'o' :: 'm' :: ' ' :: '"' :: []

/-- Match the group tail `[^"]+\.js` plus closing quote after a relative
prefix `pfx` was consumed from the front of `r`: the text up to the first
quote of `r` must have length at least 4 and end in `.js`, and the quote must
exist.  (`r.dropWhile (· ≠ '"')` is either `[]` — no closing quote, hence no
match — or starts with `'"'`; its tail is the text after the match.) -/
def parseTail (pfx r : Str) : Option (Str × Str) :=
  if (r.dropWhile (· ≠ '"')) ≠ [] ∧ 4 ≤ (r.takeWhile (· ≠ '"')).length
      ∧ jsS <:+ (r.takeWhile (· ≠ '"'))
  then some (pfx ++ r.takeWhile (· ≠ '"'), (r.dropWhile (· ≠ '"')).tail)
  else none

/-- Match `(\.\.?/[^"]+\.js)"` at the start of `s`; on success return the
captured group and the text after the closing quote. -/
def parseGroup (s : Str) : Option (Str × Str) :=
  if s.take 3 = '.' :: '.' :: '/' :: [] then parseTail ('.' :: '.' :: '/' :: []) (s.drop 3)
  else if s.take 2 = '.' :: '/' :: [] then parseTail ('.' :: '/' :: []) (s.drop 2)
  else none

/-- Match the whole import pattern at the start of `s`. -/
def tryMatch (s : Str) : Option (Str × Str) :=
  if s.take 6 = FROMQ then parseGroup (s.drop 6) else none

/-- `re.sub` of the import pattern with a replacement function `F` on the
captured group, with explicit fuel (the fuel is always at least the length of
the string, so the `0, s => s` branch is never reached on well-fuelled calls).

The replacement used by the program is
`match.group(0).replace(import_path, new_rel)` (source line 47).  The whole
match `group(0)` is `from "` ++ group ++ `"`, and the group occurs in it
exactly once: it cannot start inside `from "` (the group starts with `.`,
which does not occur in `from "`), and it cannot start later (it would have
to contain the closing quote, but the group is quote-free).  Hence the
replacement text is `from "` ++ `F group` ++ `"`. -/
def subN (F : Str → Str) : Nat → Str → Str
  | 0, s => s
  | _ + 1, [] => []
  | n + 1, c :: rest =>
    match tryMatch (c :: rest) with
    | some (g, after) => FROMQ ++ F g ++ '"' :: subN F n after
    | none => c :: subN F n rest

/-- `re.sub(r'from "(\.\.?/[^"]+\.js)"', F-on-the-group, s)`. -/
def subImports (F : Str → Str) (s : Str) : Str := subN F s.length s

/-- `replace_import` (source lines 42-47) as a function of the captured
group: resolve the import from the file's old location, map the target
through the move mapping, and relativize against the file's new location. -/
def replImport (old_abs new_abs : Path) (moves : Moves) (g : Str) : Str :=
  make_relative new_abs (new_path_of (resolve_import old_abs g) moves)

/-- The new content computed for one file (source line 49). -/
def newContentOf (old_abs : Path) (moves : Moves) (content : Str) : Str :=
  subImports (replImport old_abs (new_path_of old_abs moves) moves) content

/-- The update entry step 1 of `run` computes for one discovered file
(source lines 37-51): an entry `(old, (new, newContent))` exactly when the
content changed or the path changed, no entry otherwise. -/
def updateEntry (moves : Moves) (fc : Path × Str) : Option (Path × Path × Str) :=
  if newContentOf fc.1 moves fc.2 ≠ fc.2 ∨ new_path_of fc.1 moves ≠ fc.1
  then some (fc.1, new_path_of fc.1 moves, newContentOf fc.1 moves fc.2) else none

/-- The `updates` mapping built by step 1 of `run` (source lines 36-51). -/
def updatesOf (files : List (Path × Str)) (moves : Moves) : List (Path × Path × Str) :=
  files.filterMap (updateEntry moves)

/-- `P` holds of the group of every match of the import pattern at every
position of `c` (used to state hypotheses about a content string in a
decidable way). -/
def allMatchesB (P : Str → Bool) (c : Str) : Bool :=
  (List.range c.length).all fun i =>
    match tryMatch (c.drop i) with
    | some (g, _) => P g
    | none => true

/-- `c` contains no match of the import pattern at any position. -/
def noImportB (c : Str) : Bool := allMatchesB (fun _ => false) c

/-- Every import-pattern match in `c` has a backslash-free group. -/
def cleanB (c : Str) : Bool := allMatchesB (fun g => !(g.contains '\\')) c

/-!  The physical phase of `run` (source lines 53-68). -/

/-- Python string `<=` (lexicographic on code points), used by `sorted`. -/
def strLe : Str → Str → Bool
  | [], _ => true
  | _ :: _, [] => false
  | a :: as, b :: bs => if a < b then true else if b < a then false else strLe as bs

/-- `sorted(moves.keys())` (source line 55): entries sorted by origin path
string.  All origin strings share the leading `/`, so comparing the rendered
segment strings gives the same order as comparing the absolute path strings.
`List.insertionSort` is stable, like Python `sorted`. -/
def sortMoves (moves : Moves) : Moves :=
  List.insertionSort (fun a b => strLe (render a.1) (render b.1) = true) moves

/-- The `git mv` loop (source lines 55-59) with `check=True` semantics: `ok`
says whether the `git mv` subprocess for an entry succeeds; the loop stops at
the first failure (the raised `CalledProcessError` aborts the run).  Returns
the successfully processed prefix and the unprocessed remainder (whose head,
if any, is the entry whose move failed). -/
def runMoves (ok : Path × Path → Bool) : List (Path × Path) → List (Path × Path) × List (Path × Path)
  | [] => ([], [])
  | m :: t =>
    if ok m then
      let r := runMoves ok t
      (m :: r.1, r.2)
    else ([], m :: t)

/-- Filesystem/console effects of `run`, in program order. -/
inductive Effect
  | mkdirp : Path → Effect
  | gitmv : Path → Path → Effect
  | write : Path → Str → Effect
  | summary : Nat → Nat → Effect
deriving DecidableEq

/-- Is the effect a file-content write? -/
def Effect.isWrite : Effect → Bool
  | .write _ _ => true
  | _ => false

/-- Is the effect a history-preserving move? -/
def Effect.isGitmv : Effect → Bool
  | .gitmv _ _ => true
  | _ => false

/-- Effects of the move loop: each processed entry first creates the
destination directory then performs `git mv`; a failing entry still performs
its `os.makedirs` before the failing `git mv` (source lines 57-58). -/
def moveFx (applied rest : List (Path × Path)) : List Effect :=
  (applied.flatMap fun m => [Effect.mkdirp (dirname m.2), Effect.gitmv m.1 m.2]) ++
    (match rest with
     | [] => []
     | m :: _ => [Effect.mkdirp (dirname m.2)])

/-- The effect trace of `run` (source lines 22-68): step 1 computes the
updates in memory, step 2 runs the moves in sorted order aborting at the
first failure, step 3 writes the new contents (only reached when no move
failed), then the summary line
`Moved {len(moves)} files, updated imports in {len(updates)} files.`
is printed. -/
def runTrace (files : List (Path × Str)) (moves : Moves) (ok : Path × Path → Bool) : List Effect :=
  let updates := updatesOf files moves
  let mr := runMoves ok (sortMoves moves)
  if mr.2 = [] then
    moveFx mr.1 mr.2 ++ (updates.map fun u => Effect.write u.2.1 u.2.2) ++
      [Effect.summary moves.length updates.length]
  else moveFx mr.1 mr.2

/-- The path ends (at segment level) in the source suffix `.ts`. -/
def endsTs (p : Path) : Prop := tsS <:+ p.getLastD []

instance (p : Path) : Decidable (endsTs p) := by
  unfold endsTs; infer_instance

/-- A well-formed `.ts` file path: normalized absolute and ending in `.ts`
(such a path is necessarily nonempty). -/
def wfTsFile (p : Path) : Prop := wfPath p ∧ endsTs p

instance (p : Path) : Decidable (wfTsFile p) := by
  unfold wfTsFile; infer_instance

/-! ### Helper lemmas on the path model -/

theorem wfSeg.clean {s : Str} (h : wfSeg s) : cleanSeg s :=
  ⟨h.1, h.2.1, h.2.2.1⟩

theorem wfPath_dirname {p : Path} (h : wfPath p) : wfPath (dirname p) :=
  fun s hs => h s ((List.dropLast_sublist p).subset hs)

theorem endsTs_ne_nil {p : Path} (h : endsTs p) : p ≠ [] := by
  rintro rfl
  have := h.length_le
  simp [tsS] at this

theorem normStep_clean (acc : Path) {s : Str} (h : cleanSeg s) :
    normStep acc s = acc ++ [s] := by
  obtain ⟨h1, h2, h3⟩ := h
  simp [normStep, h1, h2, h3]

theorem foldl_normStep_clean {l : List Str} (h : ∀ s ∈ l, cleanSeg s) (acc : Path) :
    l.foldl normStep acc = acc ++ l := by
  induction l generalizing acc with
  | nil => simp
  | cons a t ih =>
    rw [List.foldl_cons, normStep_clean _ (h a (by simp)),
      ih (fun s hs => h s (by simp [hs]))]
    simp

theorem foldl_normStep_dotdot (n : Nat) (acc : Path) :
    (List.replicate n ('.' :: '.' :: [])).foldl normStep acc = acc.take (acc.length - n) := by
  induction n generalizing acc with
  | zero => simp
  | succ k ih =>
    have hstep : normStep acc ('.' :: '.' :: []) = acc.dropLast := by
      simp [normStep]
    rw [List.replicate_succ, List.foldl_cons, hstep, ih, List.dropLast_eq_take,
      List.take_take, List.length_take]
    congr 1
    omega

theorem cpl_le_left : ∀ a b : List Str, commonPrefixLen a b ≤ a.length
  | [], _ => by simp [commonPrefixLen]
  | _ :: _, [] => by simp [commonPrefixLen]
  | a :: as, b :: bs => by
    rw [commonPrefixLen]
    split
    · simpa using cpl_le_left as bs
    · simp

theorem cpl_le_right : ∀ a b : List Str, commonPrefixLen a b ≤ b.length
  | [], _ => by simp [commonPrefixLen]
  | _ :: _, [] => by simp [commonPrefixLen]
  | a :: as, b :: bs => by
    rw [commonPrefixLen]
    split
    · simpa using cpl_le_right as bs
    · simp

theorem take_cpl_eq : ∀ a b : List Str, a.take (commonPrefixLen a b) = b.take (commonPrefixLen a b)
  | [], _ => by simp [commonPrefixLen]
  | _ :: _, [] => by simp [commonPrefixLen]
  | a :: as, b :: bs => by
    rw [commonPrefixLen]
    split
    · next heq => simp [heq, take_cpl_eq as bs]
    · simp

theorem splitSlash_noSlash : ∀ {s : Str}, '/' ∉ s → splitSlash s = [s]
  | [], _ => rfl
  | c :: r, h => by
    have hc : c ≠ '/' := fun e => h (e ▸ List.mem_cons_self c r)
    have hr := splitSlash_noSlash (s := r) fun hm => h (List.mem_cons_of_mem _ hm)
    rw [splitSlash, if_neg hc, hr]

theorem splitSlash_append {s : Str} (hs : '/' ∉ s) (r : Str) :
    splitSlash (s ++ '/' :: r) = s :: splitSlash r := by
  induction s with
  | nil => simp [splitSlash]
  | cons c s' ih =>
    have hc : c ≠ '/' := fun e => hs (e ▸ List.mem_cons_self c s')
    have hr := ih fun hm => hs (List.mem_cons_of_mem _ hm)
    rw [List.cons_append, splitSlash, if_neg hc, hr]

theorem splitSlash_render : ∀ {l : List Str}, l ≠ [] → (∀ s ∈ l, '/' ∉ s) →
    splitSlash (render l) = l
  | [], h, _ => absurd rfl h
  | [s], _, h => by
    rw [render, splitSlash_noSlash (h s (by simp))]
  | s :: s' :: r, _, h => by
    rw [render, splitSlash_append (h s (by simp)),
      splitSlash_render (List.cons_ne_nil s' r) (fun x hx => h x (by simp [hx]))]

theorem mem_render {c : Char} : ∀ {l : List Str}, c ∈ render l → c = '/' ∨ ∃ s ∈ l, c ∈ s
  | [], h => by simp [render] at h
  | [s], h => by
    rw [render] at h
    exact Or.inr ⟨s, by simp, h⟩
  | s :: s' :: r, h => by
    rw [render, List.mem_append] at h
    rcases h with h | h
    · exact Or.inr ⟨s, by simp, h⟩
    · rcases List.mem_cons.1 h with h | h
      · exact Or.inl h
      · rcases mem_render h with h | ⟨x, hx, hcx⟩
        · exact Or.inl h
        · exact Or.inr ⟨x, by simp [hx], hcx⟩

theorem head?_render {s : Str} (hs : s ≠ []) (r : List Str) :
    (render (s :: r)).head? = s.head? := by
  obtain ⟨c, s', rfl⟩ := List.exists_cons_of_ne_nil hs
  cases r with
  | nil => rw [render]
  | cons x xs => rw [render]; simp

theorem getLast?_render : ∀ {l : List Str} {s : Str}, l.getLast? = some s → s ≠ [] →
    (render l).getLast? = s.getLast?
  | [], s, h, _ => by simp at h
  | [a], s, h, hs => by
    simp only [List.getLast?_singleton, Option.some.injEq] at h
    rw [render, h]
  | a :: b :: r, s, h, hs => by
    rw [List.getLast?_cons_cons] at h
    have ih := getLast?_render (l := b :: r) h hs
    have hne : render (b :: r) ≠ [] := by
      intro he
      rw [he] at ih
      simp only [List.getLast?_nil] at ih
      exact hs (by
        cases hgl : s.getLast? with
        | none => exact List.getLast?_eq_none_iff.1 hgl
        | some c => rw [hgl] at ih; exact absurd ih.symm (by simp))
    rw [render, List.getLast?_append_of_ne_nil _ (List.cons_ne_nil _ _),
      show ('/' :: render (b :: r)) = ['/'] ++ render (b :: r) from rfl,
      List.getLast?_append_of_ne_nil _ hne, ih]

theorem suffix_render_of_getLast : ∀ {l : List Str} {s p : Str},
    l.getLast? = some s → p <:+ s → p <:+ render l
  | [], s, p, h, _ => by simp at h
  | [a], s, p, h, hp => by
    simp only [List.getLast?_singleton, Option.some.injEq] at h
    rw [render]
    exact h ▸ hp
  | a :: b :: r, s, p, h, hp => by
    rw [List.getLast?_cons_cons] at h
    have ih := suffix_render_of_getLast (l := b :: r) h hp
    rw [render]
    exact ih.trans ((List.suffix_cons '/' _).trans (List.suffix_append _ _))

theorem getLast?_of_suffix {p x : Str} (h : p <:+ x) (hp : p ≠ []) :
    x.getLast? = p.getLast? := by
  obtain ⟨u, rfl⟩ := h
  exact List.getLast?_append_of_ne_nil u hp

theorem swapSuffix_of_not {old new s : Str} (h : ¬ old <:+ s) :
    swapSuffix old new s = s := by
  rw [swapSuffix, if_neg h]

theorem take_append_suffix {p x : Str} (h : p <:+ x) :
    x.take (x.length - p.length) ++ p = x := by
  obtain ⟨u, rfl⟩ := h
  have hl : (u ++ p).length - p.length = u.length := by simp
  rw [hl, List.take_left]

theorem swapSuffix_pos {old new s : Str} (h : old <:+ s) :
    swapSuffix old new s = s.take (s.length - old.length) ++ new := by
  rw [swapSuffix, if_pos h]

theorem suffix_swapSuffix {old new s : Str} (h : old <:+ s) :
    new <:+ swapSuffix old new s := by
  rw [swapSuffix_pos h]
  exact List.suffix_append _ _

theorem swapSuffix_inv {old new s : Str} (h : old <:+ s) :
    swapSuffix new old (swapSuffix old new s) = s := by
  rw [swapSuffix_pos h, swapSuffix_pos (List.suffix_append _ _)]
  have h1 : (s.take (s.length - old.length) ++ new).length - new.length
      = (s.take (s.length - old.length)).length := by simp
  rw [h1, List.take_left, take_append_suffix h]

theorem replaceBS_id : ∀ {s : Str}, '\\' ∉ s → replaceBS s = s
  | [], _ => rfl
  | c :: r, h => by
    have hc : c ≠ '\\' := fun e => h (e ▸ List.mem_cons_self c r)
    have hr := replaceBS_id (s := r) fun hm => h (List.mem_cons_of_mem _ hm)
    simp only [replaceBS, List.map_cons, if_neg hc] at *
    rw [hr]

theorem splitSlash_dotSlash (x : Str) :
    splitSlash ('.' :: '/' :: x) = ('.' :: []) :: splitSlash x := by
  rw [splitSlash, if_neg (by decide), splitSlash, if_pos rfl]

theorem foldl_normStep_dot (acc : Path) (l : List Str) :
    ((('.' :: []) :: l).foldl normStep acc) = l.foldl normStep acc := by
  have h : normStep acc ('.' :: []) = acc := by simp [normStep]
  rw [List.foldl_cons, h]

theorem mem_relSegs {t D : Path} {s : Str} (h : s ∈ relSegs t D) :
    s = ('.' :: '.' :: []) ∨ s ∈ t := by
  rw [relSegs, List.mem_append] at h
  rcases h with h | h
  · exact Or.inl (List.mem_replicate.1 h).2
  · exact Or.inr (List.mem_of_mem_drop h)

/-- The core round-trip fact: for well-formed normalized absolute paths with
the target ending in `.ts`, resolving the relativized reference from the same
file reproduces the target. -/
theorem resolve_make_relative {f t : Path} (hf : wfPath f) (ht : wfPath t) (htts : endsTs t) :
    resolve_import f (make_relative f t) = t := by
  have hD : wfPath (dirname f) := wfPath_dirname hf
  have hiD : commonPrefixLen (dirname f) t ≤ (dirname f).length := cpl_le_left _ t
  have hit : commonPrefixLen (dirname f) t ≤ t.length := cpl_le_right _ t
  have htake : (dirname f).take (commonPrefixLen (dirname f) t)
      = t.take (commonPrefixLen (dirname f) t) := take_cpl_eq _ t
  have htne : t ≠ [] := endsTs_ne_nil htts
  -- segment-level facts about relSegs
  have hsegfacts : ∀ s ∈ relSegs t (dirname f), s ≠ [] ∧ '/' ∉ s ∧ '\\' ∉ s := by
    intro s hs
    rcases mem_relSegs hs with rfl | hst
    · exact ⟨by decide, by decide, by decide⟩
    · have := ht s hst
      exact ⟨this.1, this.2.2.2.1, this.2.2.2.2.1⟩
  have hBSfree : '\\' ∉ render (relSegs t (dirname f)) := by
    intro hm
    rcases mem_render hm with h | ⟨s, hs, hcs⟩
    · exact absurd h (by decide)
    · exact (hsegfacts s hs).2.2 hcs
  by_cases hA : relSegs t (dirname f) = []
  · -- the target equals the from-directory: relpath is "."
    have h1 : (dirname f).length - commonPrefixLen (dirname f) t = 0 ∧ t.drop (commonPrefixLen (dirname f) t) = [] := by
      rw [relSegs] at hA
      rcases List.append_eq_nil.1 hA with ⟨ha, hb⟩
      refine ⟨?_, hb⟩
      have := congrArg List.length ha
      simpa using this
    have hteq : t = dirname f := by
      have hlt : t.length ≤ commonPrefixLen (dirname f) t := List.drop_eq_nil_iff.1 h1.2
      have hlD : (dirname f).length ≤ commonPrefixLen (dirname f) t := by omega
      calc t = t.take (commonPrefixLen (dirname f) t) := (List.take_of_length_le hlt).symm
        _ = (dirname f).take (commonPrefixLen (dirname f) t) := htake.symm
        _ = dirname f := List.take_of_length_le hlD
    have hrp0 : relpathStr t (dirname f) = ('.' :: []) := by
      simp [relpathStr, hA]
    have hrb : relBase f t = ('.' :: []) := by
      rw [relBase, hrp0, replaceBS_id (by decide), swapSuffix_of_not (by decide)]
    have hmr : make_relative f t = ('.' :: []) := by
      simp [make_relative, hrb]
    rw [hmr, resolve_import]
    simp only [swapSuffix_of_not (show ¬ jsS <:+ ('.' :: []) by decide)]
    rw [if_neg (by decide)]
    show normAbs (dirname f ++ splitSlash ('.' :: [])) = t
    have hsp : splitSlash ('.' :: []) = (('.' :: []) :: []) := rfl
    rw [hsp, normAbs, List.foldl_append,
      foldl_normStep_clean (fun s hs => (hD s hs).clean) [], List.nil_append,
      foldl_normStep_dot, List.foldl_nil]
    exact hteq.symm
  · -- relpath produced at least one segment
    have hfacts2 : ∀ s ∈ relSegs t (dirname f), '/' ∉ s := fun s hs => (hsegfacts s hs).2.1
    have hsplit : splitSlash (render (relSegs t (dirname f))) = relSegs t (dirname f) :=
      splitSlash_render hA hfacts2
    have hrp : relpathStr t (dirname f) = render (relSegs t (dirname f)) := by
      rw [relpathStr]
      simp only [hA, if_neg]
      simp [hA]
    by_cases hdrop : t.drop (commonPrefixLen (dirname f) t) = []
    · -- pure chain of ".." segments
      have hn : (dirname f).length - commonPrefixLen (dirname f) t ≠ 0 := by
        intro h0
        apply hA
        rw [relSegs, h0, hdrop]
        simp
      have hrl : relSegs t (dirname f)
          = List.replicate ((dirname f).length - commonPrefixLen (dirname f) t) ('.' :: '.' :: []) := by
        rw [relSegs, hdrop, List.append_nil]
      have hgl : (relSegs t (dirname f)).getLast? = some ('.' :: '.' :: []) := by
        rw [hrl, List.getLast?_replicate, if_neg hn]
      have hglr : (render (relSegs t (dirname f))).getLast? = some '.' := by
        rw [getLast?_render hgl (by decide)]
        rfl
      have hnots : ¬ tsS <:+ render (relSegs t (dirname f)) := by
        intro h
        have := getLast?_of_suffix h (by decide)
        rw [hglr] at this
        exact absurd this (by decide)
      have hnojs : ¬ jsS <:+ render (relSegs t (dirname f)) := by
        intro h
        have := getLast?_of_suffix h (by decide)
        rw [hglr] at this
        exact absurd this (by decide)
      have hrb : relBase f t = render (relSegs t (dirname f)) := by
        rw [relBase, hrp, replaceBS_id hBSfree, swapSuffix_of_not hnots]
      have hhead : (render (relSegs t (dirname f))).head? = some '.' := by
        obtain ⟨m, hm⟩ : ∃ m, (dirname f).length - commonPrefixLen (dirname f) t = m + 1 :=
          ⟨(dirname f).length - commonPrefixLen (dirname f) t - 1, by omega⟩
        rw [hrl, hm, List.replicate_succ, head?_render (by decide)]
        rfl
      have hmr : make_relative f t = render (relSegs t (dirname f)) := by
        rw [make_relative, hrb, if_pos (by rw [hhead])]
      rw [hmr, resolve_import]
      simp only [swapSuffix_of_not hnojs]
      rw [if_neg (by rw [hhead]; decide), hsplit, normAbs, List.foldl_append,
        foldl_normStep_clean (fun s hs => (hD s hs).clean) [], List.nil_append, hrl,
        foldl_normStep_dotdot]
      have hi : (dirname f).length - ((dirname f).length - commonPrefixLen (dirname f) t)
          = commonPrefixLen (dirname f) t := by omega
      rw [hi, htake]
      have hlt : t.length ≤ commonPrefixLen (dirname f) t := List.drop_eq_nil_iff.1 hdrop
      exact List.take_of_length_le hlt
    · -- the relative path ends in the target's final `.ts` segment
      obtain ⟨s, hs⟩ := List.exists_cons_of_ne_nil htne
      obtain ⟨sl, hsl⟩ : ∃ sl, t.getLast? = some sl := by
        cases h : t.getLast? with
        | none => exact absurd (List.getLast?_eq_none_iff.1 h) htne
        | some x => exact ⟨x, rfl⟩
      have hslts : tsS <:+ sl := by
        have := htts
        rw [endsTs, List.getLastD_eq_getLast?, hsl] at this
        exact this
      have hslne : sl ≠ [] := by
        intro h
        rw [h] at hslts
        exact absurd hslts.length_le (by decide)
      have hgl : (relSegs t (dirname f)).getLast? = some sl := by
        rw [relSegs, List.getLast?_append_of_ne_nil _ hdrop]
        calc (t.drop (commonPrefixLen (dirname f) t)).getLast?
            = (t.take (commonPrefixLen (dirname f) t) ++ t.drop (commonPrefixLen (dirname f) t)).getLast? :=
              (List.getLast?_append_of_ne_nil _ hdrop).symm
          _ = t.getLast? := by rw [List.take_append_drop]
          _ = some sl := hsl
      have hsfx : tsS <:+ render (relSegs t (dirname f)) :=
        suffix_render_of_getLast hgl hslts
      have hrb : relBase f t
          = (render (relSegs t (dirname f))).take ((render (relSegs t (dirname f))).length - 3)
            ++ jsS := by
        rw [relBase, hrp, replaceBS_id hBSfree, swapSuffix_pos hsfx]
        have h3 : tsS.length = 3 := rfl
        rw [h3]
      -- make_relative is the base string with an optional "./" in front
      obtain ⟨pre, hpre, hmr⟩ : ∃ pre, (pre = ([] : Str) ∨ pre = ('.' :: '/' :: []))
          ∧ make_relative f t = pre ++ relBase f t := by
        rw [make_relative]
        by_cases hh : (relBase f t).head? = some '.'
        · exact ⟨[], Or.inl rfl, by rw [if_pos hh, List.nil_append]⟩
        · exact ⟨('.' :: '/' :: []), Or.inr rfl, by rw [if_neg hh]; rfl⟩
      have hjs_sfx : jsS <:+ pre ++ relBase f t := by
        rw [hrb]
        exact (List.suffix_append _ jsS).trans
          ((List.suffix_append _ _).trans (by rw [← List.append_assoc]))
      have hswapback : swapSuffix jsS tsS (pre ++ relBase f t)
          = pre ++ render (relSegs t (dirname f)) := by
        rw [swapSuffix_pos hjs_sfx, hrb]
        have hassoc : pre ++ ((render (relSegs t (dirname f))).take
              ((render (relSegs t (dirname f))).length - 3) ++ jsS)
            = (pre ++ (render (relSegs t (dirname f))).take
              ((render (relSegs t (dirname f))).length - 3)) ++ jsS := by
          rw [List.append_assoc]
        rw [hassoc]
        have hlen : ((pre ++ (render (relSegs t (dirname f))).take
              ((render (relSegs t (dirname f))).length - 3)) ++ jsS).length - jsS.length
            = (pre ++ (render (relSegs t (dirname f))).take
              ((render (relSegs t (dirname f))).length - 3)).length := by
          have h3 : jsS.length = 3 := rfl
          simp only [List.length_append, h3]
          omega
        rw [hlen, List.take_left, List.append_assoc]
        congr 1
        have h3 : jsS.length = 3 := rfl
        have := take_append_suffix hsfx
        rwa [show tsS.length = 3 from rfl] at this
      rw [hmr, resolve_import]
      simp only [hswapback]
      -- the first character is never '/'
      obtain ⟨s0, rl', hrl'⟩ := List.exists_cons_of_ne_nil hA
      have hs0 : s0 ≠ [] ∧ '/' ∉ s0 := by
        have := hsegfacts s0 (by rw [hrl']; simp)
        exact ⟨this.1, this.2.1⟩
      have hheadr : (render (relSegs t (dirname f))).head? = s0.head? := by
        rw [hrl', head?_render hs0.1]
      have hnoslash : ¬ (pre ++ render (relSegs t (dirname f))).head? = some '/' := by
        rcases hpre with rfl | rfl
        · rw [List.nil_append, hheadr]
          obtain ⟨c0, s0', rfl⟩ := List.exists_cons_of_ne_nil hs0.1
          intro h
          simp only [List.head?_cons, Option.some.injEq] at h
          exact hs0.2 (h ▸ List.mem_cons_self _ _)
        · simp
      rw [if_neg hnoslash]
      have hsplitfull : splitSlash (pre ++ render (relSegs t (dirname f)))
          = (if pre = ([] : Str) then [] else (('.' :: []) :: [])) ++ relSegs t (dirname f) := by
        rcases hpre with rfl | rfl
        · rw [List.nil_append, hsplit, if_pos rfl, List.nil_append]
        · rw [if_neg (by decide)]
          show splitSlash ('.' :: '/' :: render (relSegs t (dirname f)))
            = (('.' :: []) :: []) ++ relSegs t (dirname f)
          rw [splitSlash_dotSlash, hsplit]
          rfl
      rw [hsplitfull]
      have hcore : normAbs (dirname f
          ++ ((if pre = ([] : Str) then [] else (('.' :: []) :: [])) ++ relSegs t (dirname f))) = t := by
        rw [normAbs, List.foldl_append, List.foldl_append,
          foldl_normStep_clean (fun s hs => (hD s hs).clean) [], List.nil_append]
        have hmid : ((if pre = ([] : Str) then ([] : List Str) else (('.' :: []) :: []))).foldl
            normStep (dirname f) = dirname f := by
          split
          · rfl
          · rw [foldl_normStep_dot, List.foldl_nil]
        rw [hmid, relSegs, List.foldl_append, foldl_normStep_dotdot]
        have hi : (dirname f).length - ((dirname f).length - commonPrefixLen (dirname f) t)
            = commonPrefixLen (dirname f) t := by omega
        rw [hi, foldl_normStep_clean (fun s hs => (ht s (List.mem_of_mem_drop hs)).clean),
          htake, List.take_append_drop]
      exact hcore

/-! ### Claim C1 -/

/-- C1: round-trip of relativize and resolve.  For every pair of well-formed
normalized absolute `.ts` file paths `f` and `t`,
`resolve_import f (make_relative f t) = t`; in particular, for every import
whose resolved target is mapped by the move mapping, the rewritten reference
resolved from the referencing file's (new) location `f` equals the target's
new location `new_path_of tgt moves`. -/
theorem c1_round_trip (f : Path) (hf : wfTsFile f) :
    (∀ t, wfTsFile t → resolve_import f (make_relative f t) = t) ∧
    (∀ (moves : Moves) (tgt : Path), lookupMove tgt moves ≠ none →
      wfTsFile (new_path_of tgt moves) →
      resolve_import f (make_relative f (new_path_of tgt moves)) = new_path_of tgt moves) :=
  ⟨fun _ ht => resolve_make_relative hf.1 ht.1 ht.2,
   fun _ _ _ hwf => resolve_make_relative hf.1 hwf.1 hwf.2⟩

/-- Witness for C1 at a concrete pair of paths (`/r/b.ts` and `/r/sub/a.ts`)
and a concrete one-entry move mapping. -/
theorem c1_round_trip_witness :
    resolve_import ["r".data, "b.ts".data]
        (make_relative ["r".data, "b.ts".data] ["r".data, "sub".data, "a.ts".data])
      = ["r".data, "sub".data, "a.ts".data] ∧
    resolve_import ["r".data, "b.ts".data]
        (make_relative ["r".data, "b.ts".data]
          (new_path_of ["r".data, "a.ts".data]
            [(["r".data, "a.ts".data], ["r".data, "sub".data, "a.ts".data])]))
      = new_path_of ["r".data, "a.ts".data]
          [(["r".data, "a.ts".data], ["r".data, "sub".data, "a.ts".data])] :=
  ⟨(c1_round_trip ["r".data, "b.ts".data] (by decide)).1 _ (by decide),
   (c1_round_trip ["r".data, "b.ts".data] (by decide)).2
     [(["r".data, "a.ts".data], ["r".data, "sub".data, "a.ts".data])]
     ["r".data, "a.ts".data] (by decide) (by decide)⟩

/-! ### Claim C3 -/

/-- C3: identity default of destination lookup.  A path that is not a key of
the move mapping is mapped to itself by `new_path_of`; a path that is a key
is mapped to its recorded destination. -/
theorem c3_new_path_of (moves : Moves) (p : Path) :
    (lookupMove p moves = none → new_path_of p moves = p) ∧
    (∀ q, lookupMove p moves = some q → new_path_of p moves = q) := by
  constructor
  · intro h
    rw [new_path_of, h]
    rfl
  · intro q h
    rw [new_path_of, h]
    rfl

/-- Witness for C3: a non-key stays in place, a key is mapped. -/
theorem c3_new_path_of_witness :
    new_path_of ["r".data, "c.ts".data]
        [(["r".data, "a.ts".data], ["r".data, "sub".data, "a.ts".data])]
      = ["r".data, "c.ts".data] ∧
    new_path_of ["r".data, "a.ts".data]
        [(["r".data, "a.ts".data], ["r".data, "sub".data, "a.ts".data])]
      = ["r".data, "sub".data, "a.ts".data] :=
  ⟨(c3_new_path_of _ _).1 (by decide), (c3_new_path_of _ _).2 _ (by decide)⟩

/-! ### Claim C7 -/

/-- C7 counterexample: for `from_file = /r/a.ts`, `to_file = /r/.h.ts` the
relative path is `.h.ts`; `make_relative` returns `.h.js`, which starts with
neither `./` nor `../`, and no `./` prefix is added even though the string
does not start with a relative-path marker — refuting both the stated iff
and the stated consequence. -/
theorem c7_counterexample :
    make_relative ["r".data, "a.ts".data] ["r".data, ".h.ts".data] = ".h.js".data ∧
    ¬ ("./".data <+: ".h.js".data) ∧ ¬ ("../".data <+: ".h.js".data) := by
  decide

/-- C7 amended: `make_relative` prefixes `./` exactly when the computed
relative string does not already start with the character `'.'` (Python's
`rel.startswith('.')`), so every returned string begins with `'.'` (though
not necessarily with `./` or `../`). -/
theorem c7_amended (f t : Path) :
    (make_relative f t).head? = some '.' ∧
    (¬ (relBase f t).head? = some '.' → make_relative f t = '.' :: '/' :: relBase f t) ∧
    ((relBase f t).head? = some '.' → make_relative f t = relBase f t) := by
  refine ⟨?_, fun h => by rw [make_relative, if_neg h],
    fun h => by rw [make_relative, if_pos h]⟩
  rw [make_relative]
  by_cases h : (relBase f t).head? = some '.'
  · rw [if_pos h]
    exact h
  · rw [if_neg h]
    rfl

/-- Witness for C7 (amended) at the same concrete pair of paths. -/
theorem c7_amended_witness :
    make_relative ["r".data, "a.ts".data] ["r".data, ".h.ts".data]
      = relBase ["r".data, "a.ts".data] ["r".data, ".h.ts".data] :=
  (c7_amended _ _).2.2 (by decide)

/-! ### Structure of the import-pattern matcher -/

/-- The shape of a string the group of the import pattern can match:
`../` or `./`, then a quote-free tail of length at least 4 ending in `.js`. -/
def ImportShaped (g : Str) : Prop :=
  ∃ pfx q, (pfx = ('.' :: '.' :: '/' :: []) ∨ pfx = ('.' :: '/' :: []))
    ∧ g = pfx ++ q ∧ '"' ∉ q ∧ 4 ≤ q.length ∧ jsS <:+ q

theorem takeWhile_quote_append {q : Str} (hq : '"' ∉ q) (y : Str) :
    ((q ++ '"' :: y).takeWhile (· ≠ '"')) = q := by
  induction q with
  | nil => simp
  | cons c r ih =>
    have hc : c ≠ '"' := fun e => hq (e ▸ List.mem_cons_self c r)
    have ihr := ih fun hm => hq (List.mem_cons_of_mem _ hm)
    simp [List.takeWhile_cons, hc]
    simpa using ihr

theorem dropWhile_quote_append {q : Str} (hq : '"' ∉ q) (y : Str) :
    ((q ++ '"' :: y).dropWhile (· ≠ '"')) = '"' :: y := by
  induction q with
  | nil => simp
  | cons c r ih =>
    have hc : c ≠ '"' := fun e => hq (e ▸ List.mem_cons_self c r)
    have ihr := ih fun hm => hq (List.mem_cons_of_mem _ hm)
    simp [List.dropWhile_cons, hc]
    simpa using ihr

/-- Computation rule: a shaped, quote-free group followed by a quote matches,
with exactly the expected remainder. -/
theorem parseGroup_shaped {g : Str} (hg : ImportShaped g) (w : Str) :
    parseGroup (g ++ '"' :: w) = some (g, w) := by
  obtain ⟨pfx, q, hpfx, rfl, hq, hlen, hjs⟩ := hg
  rcases hpfx with rfl | rfl
  · have ht3 : (((('.' :: '.' :: '/' :: []) ++ q) ++ '"' :: w).take 3)
        = ('.' :: '.' :: '/' :: []) := by
      rw [List.append_assoc]
      exact List.take_left' rfl
    have hd3 : (((('.' :: '.' :: '/' :: []) ++ q) ++ '"' :: w).drop 3) = q ++ '"' :: w := by
      rw [List.append_assoc]
      exact List.drop_left' rfl
    rw [parseGroup, if_pos ht3, hd3, parseTail,
      if_pos (by
        rw [takeWhile_quote_append hq, dropWhile_quote_append hq]
        exact ⟨by simp, hlen, hjs⟩)]
    rw [takeWhile_quote_append hq, dropWhile_quote_append hq]
    rfl
  · have ht3 : (((('.' :: '/' :: []) ++ q) ++ '"' :: w).take 3)
        ≠ ('.' :: '.' :: '/' :: []) := by
      rcases q with _ | ⟨c, q'⟩
      · simp at hlen
      · intro he
        simp only [List.cons_append, List.nil_append, List.take_succ_cons,
          List.cons.injEq] at he
        exact absurd he.2.1 (by decide)
    have ht2 : (((('.' :: '/' :: []) ++ q) ++ '"' :: w).take 2) = ('.' :: '/' :: []) := by
      rw [List.append_assoc]
      exact List.take_left' rfl
    have hd2 : (((('.' :: '/' :: []) ++ q) ++ '"' :: w).drop 2) = q ++ '"' :: w := by
      rw [List.append_assoc]
      exact List.drop_left' rfl
    rw [parseGroup, if_neg ht3, if_pos ht2, hd2, parseTail,
      if_pos (by
        rw [takeWhile_quote_append hq, dropWhile_quote_append hq]
        exact ⟨by simp, hlen, hjs⟩)]
    rw [takeWhile_quote_append hq, dropWhile_quote_append hq]
    rfl

theorem parseTail_some {pfx r g a : Str} (h : parseTail pfx r = some (g, a)) :
    r = r.takeWhile (· ≠ '"') ++ '"' :: a ∧ g = pfx ++ r.takeWhile (· ≠ '"')
      ∧ '"' ∉ r.takeWhile (· ≠ '"') ∧ 4 ≤ (r.takeWhile (· ≠ '"')).length
      ∧ jsS <:+ r.takeWhile (· ≠ '"') := by
  rw [parseTail] at h
  by_cases hc : (r.dropWhile (· ≠ '"')) ≠ [] ∧ 4 ≤ (r.takeWhile (· ≠ '"')).length
      ∧ jsS <:+ (r.takeWhile (· ≠ '"'))
  · rw [if_pos hc] at h
    simp only [Option.some.injEq, Prod.mk.injEq] at h
    have hg : g = pfx ++ r.takeWhile (· ≠ '"') := h.1.symm
    have ha : a = (r.dropWhile (· ≠ '"')).tail := h.2.symm
    obtain ⟨c, tl, hct⟩ := List.exists_cons_of_ne_nil hc.1
    have hchar : c = '"' := by
      have := List.head?_dropWhile_not (p := (· ≠ '"')) r
      rw [hct] at this
      simpa using this
    have hquote : '"' ∉ r.takeWhile (· ≠ '"') := fun hm => by
      have := List.mem_takeWhile_imp hm
      simp at this
    refine ⟨?_, hg, hquote, hc.2.1, hc.2.2⟩
    conv_lhs => rw [← List.takeWhile_append_dropWhile (p := (· ≠ '"')) (l := r)]
    rw [hct, hchar, ha, hct]
    rfl
  · rw [if_neg hc] at h
    exact absurd h (by simp)

/-- Inversion: a successful group parse decomposes the input. -/
theorem parseGroup_some {s g a : Str} (h : parseGroup s = some (g, a)) :
    s = g ++ '"' :: a ∧ ImportShaped g ∧ '"' ∉ g := by
  rw [parseGroup] at h
  by_cases h3 : s.take 3 = ('.' :: '.' :: '/' :: [])
  · rw [if_pos h3] at h
    obtain ⟨hr, hg, hquote, hlen, hjs⟩ := parseTail_some h
    have hshape : ImportShaped g :=
      ⟨('.' :: '.' :: '/' :: []), (s.drop 3).takeWhile (· ≠ '"'), Or.inl rfl, hg, hquote,
        hlen, hjs⟩
    refine ⟨?_, hshape, ?_⟩
    · conv_lhs => rw [← List.take_append_drop 3 s, h3, hr]
      rw [hg, List.append_assoc]
    · rw [hg]
      intro hm
      rcases List.mem_append.1 hm with hm | hm
      · exact absurd hm (by decide)
      · exact hquote hm
  · rw [if_neg h3] at h
    by_cases h2 : s.take 2 = ('.' :: '/' :: [])
    · rw [if_pos h2] at h
      obtain ⟨hr, hg, hquote, hlen, hjs⟩ := parseTail_some h
      have hshape : ImportShaped g :=
        ⟨('.' :: '/' :: []), (s.drop 2).takeWhile (· ≠ '"'), Or.inr rfl, hg, hquote,
          hlen, hjs⟩
      refine ⟨?_, hshape, ?_⟩
      · conv_lhs => rw [← List.take_append_drop 2 s, h2, hr]
        rw [hg, List.append_assoc]
      · rw [hg]
        intro hm
        rcases List.mem_append.1 hm with hm | hm
        · exact absurd hm (by decide)
        · exact hquote hm
    · rw [if_neg h2] at h
      exact absurd h (by simp)


theorem tryMatch_cons_ne {c : Char} (s : Str) (h : c ≠ 'f') : tryMatch (c :: s) = none := by
  rw [tryMatch, if_neg]
  intro he
  have hc : c = 'f' := by
    have := congrArg List.head? he
    simpa [FROMQ] using this
  exact h hc

theorem tryMatch_nil : tryMatch [] = none := rfl

theorem tryMatch_fromq (r : Str) : tryMatch (FROMQ ++ r) = parseGroup r := by
  rw [tryMatch, if_pos (List.take_left' (show FROMQ.length = 6 from rfl)),
    List.drop_left' (show FROMQ.length = 6 from rfl)]

/-- Computation rule for a full match. -/
theorem tryMatch_shaped {g : Str} (hg : ImportShaped g) (w : Str) :
    tryMatch (FROMQ ++ (g ++ '"' :: w)) = some (g, w) := by
  rw [tryMatch_fromq, parseGroup_shaped hg]

/-- Inversion for a full match. -/
theorem tryMatch_some : ∀ {s g a : Str}, tryMatch s = some (g, a) →
    s = FROMQ ++ (g ++ '"' :: a) ∧ ImportShaped g ∧ '"' ∉ g := by
  intro s g a h
  rw [tryMatch] at h
  by_cases h6 : s.take 6 = FROMQ
  · rw [if_pos h6] at h
    obtain ⟨hs, hshape, hq⟩ := parseGroup_some h
    refine ⟨?_, hshape, hq⟩
    conv_lhs => rw [← List.take_append_drop 6 s, h6, hs]
  · rw [if_neg h6] at h
    exact absurd h (by simp)

theorem tryMatch_after_lt {s g a : Str} (h : tryMatch s = some (g, a)) :
    a.length < s.length := by
  obtain ⟨hs, ⟨pfx, q, hpfx, rfl, _, _, _⟩, _⟩ := tryMatch_some h
  rw [hs]
  simp only [List.length_append, List.length_cons, FROMQ]
  omega

theorem ImportShaped.ne_nil {g : Str} (h : ImportShaped g) : g ≠ [] := by
  obtain ⟨pfx, q, hpfx, rfl, _, hlen, _⟩ := h
  rcases hpfx with rfl | rfl <;> simp

theorem ImportShaped.js_suffix {g : Str} (h : ImportShaped g) : jsS <:+ g := by
  obtain ⟨pfx, q, hpfx, rfl, _, _, hjs⟩ := h
  exact hjs.trans (List.suffix_append pfx q)

/-! ### Unfolding equations for the bounded substitution -/

theorem subN_congr (F : Str → Str) : ∀ (n m : Nat) (s : Str),
    s.length ≤ n → s.length ≤ m → subN F n s = subN F m s := by
  intro n
  induction n with
  | zero =>
    intro m s hn _
    have : s = [] := List.length_eq_zero.1 (Nat.le_zero.1 hn)
    subst this
    cases m <;> rfl
  | succ k ih =>
    intro m s hn hm
    cases s with
    | nil => cases m <;> rfl
    | cons c rest =>
      obtain ⟨m', rfl⟩ : ∃ m', m = m' + 1 := by
        cases m
        · simp at hm
        · exact ⟨_, rfl⟩
      show (match tryMatch (c :: rest) with
        | some (g, after) => FROMQ ++ F g ++ '"' :: subN F k after
        | none => c :: subN F k rest)
        = (match tryMatch (c :: rest) with
        | some (g, after) => FROMQ ++ F g ++ '"' :: subN F m' after
        | none => c :: subN F m' rest)
      rcases htm : tryMatch (c :: rest) with _ | ⟨g, after⟩
      · have hlt : rest.length ≤ k := by
          simp only [List.length_cons] at hn
          omega
        have hlt' : rest.length ≤ m' := by
          simp only [List.length_cons] at hm
          omega
        exact congrArg (c :: ·) (ih m' rest hlt hlt')
      · have halt := tryMatch_after_lt htm
        simp only [List.length_cons] at hn hm halt
        have h1 : after.length ≤ k := by omega
        have h2 : after.length ≤ m' := by omega
        exact congrArg (fun x => FROMQ ++ F g ++ '"' :: x) (ih m' after h1 h2)

theorem subImports_nil (F : Str → Str) : subImports F [] = [] := rfl

theorem subImports_cons_none {c : Char} {s : Str} (F : Str → Str)
    (h : tryMatch (c :: s) = none) : subImports F (c :: s) = c :: subImports F s := by
  rw [subImports, subImports]
  show (match tryMatch (c :: s) with
    | some (g, after) => FROMQ ++ F g ++ '"' :: subN F s.length after
    | none => c :: subN F s.length s) = _
  rw [h]

theorem subImports_match {s g a : Str} (F : Str → Str) (h : tryMatch s = some (g, a)) :
    subImports F s = FROMQ ++ F g ++ '"' :: subImports F a := by
  obtain ⟨c, rest, rfl⟩ : ∃ c rest, s = c :: rest := by
    cases s with
    | nil => exact absurd h (by rw [tryMatch_nil]; simp)
    | cons c rest => exact ⟨c, rest, rfl⟩
  have halt := tryMatch_after_lt h
  simp only [List.length_cons] at halt
  show (match tryMatch (c :: rest) with
    | some (g, after) => FROMQ ++ F g ++ '"' :: subN F rest.length after
    | none => c :: subN F rest.length rest) = _
  rw [h]
  show FROMQ ++ F g ++ '"' :: subN F rest.length a = _
  rw [subImports, subN_congr F rest.length a.length a (by omega) (Nat.le_refl _)]

/-! ### Scan-preservation lemmas: what a second `re.sub` pass sees -/

theorem tryMatch_mem_quote {s g a : Str} (h : tryMatch s = some (g, a)) : '"' ∈ s := by
  obtain ⟨hs, _, _⟩ := tryMatch_some h
  rw [hs]
  exact List.mem_append.2 (Or.inl (by decide))

/-- A quote-free string is left unchanged by the substitution. -/
theorem subImports_no_quote (F : Str → Str) : ∀ {u : Str}, '"' ∉ u → subImports F u = u
  | [], _ => rfl
  | c :: rest, h => by
    have htm : tryMatch (c :: rest) = none := by
      cases htm' : tryMatch (c :: rest) with
      | none => rfl
      | some p => exact absurd (tryMatch_mem_quote htm') h
    rw [subImports_cons_none F htm,
      subImports_no_quote F fun hm => h (List.mem_cons_of_mem _ hm)]

/-- Characters which can never begin a match pass through the scan. -/
theorem subImports_inert_append (F : Str → Str) :
    ∀ {p : Str}, (∀ c ∈ p, c ≠ 'f') → ∀ (u : Str),
    subImports F (p ++ u) = p ++ subImports F u
  | [], _, u => by simp
  | c :: p', h, u => by
    have hc : c ≠ 'f' := h c (by simp)
    rw [List.cons_append, subImports_cons_none F (tryMatch_cons_ne _ hc),
      subImports_inert_append F (fun d hd => h d (by simp [hd])) u]
    rfl

theorem dropWhile_quote_of_mem {u : Str} (h : '"' ∈ u) :
    u.dropWhile (· ≠ '"') = '"' :: (u.dropWhile (· ≠ '"')).tail := by
  have hne : u.dropWhile (· ≠ '"') ≠ [] := by
    intro he
    have hu : u.takeWhile (· ≠ '"') = u := by
      have := List.takeWhile_append_dropWhile (· ≠ '"') u
      rw [he, List.append_nil] at this
      exact this
    have := List.mem_takeWhile_imp (hu.symm ▸ h)
    simp at this
  obtain ⟨c, tl, hct⟩ := List.exists_cons_of_ne_nil hne
  have hchar : c = '"' := by
    have := List.head?_dropWhile_not (p := (· ≠ '"')) u
    rw [hct] at this
    simpa using this
  rw [hct, hchar]
  rfl

theorem dropWhile_quote_ne_nil_iff {u : Str} : (u.dropWhile (· ≠ '"')) ≠ [] ↔ '"' ∈ u := by
  constructor
  · intro h
    obtain ⟨c, tl, hct⟩ := List.exists_cons_of_ne_nil h
    have hchar : c = '"' := by
      have := List.head?_dropWhile_not (p := (· ≠ '"')) u
      rw [hct] at this
      simpa using this
    have : c ∈ u.dropWhile (· ≠ '"') := by rw [hct]; simp
    exact hchar ▸ (List.dropWhile_sublist _).subset this
  · intro h he
    have hu : u.takeWhile (· ≠ '"') = u := by
      have := List.takeWhile_append_dropWhile (· ≠ '"') u
      rw [he, List.append_nil] at this
      exact this
    have := List.mem_takeWhile_imp (hu.symm ▸ h)
    simp at this

/-- The first-quote decomposition of a string is unique. -/
theorem quote_split_unique : ∀ {x y u v : Str}, '"' ∉ x → '"' ∉ y →
    x ++ '"' :: u = y ++ '"' :: v → x = y ∧ u = v
  | [], [], u, v, _, _, h => by
    simp only [List.nil_append, List.cons.injEq] at h
    exact ⟨rfl, h.2⟩
  | [], c :: y', u, v, _, hy, h => by
    simp only [List.nil_append, List.cons_append, List.cons.injEq] at h
    exact absurd (h.1 ▸ List.mem_cons_self c y') hy
  | c :: x', [], u, v, hx, _, h => by
    simp only [List.nil_append, List.cons_append, List.cons.injEq] at h
    exact absurd (h.1.symm ▸ List.mem_cons_self c x') hx
  | c :: x', d :: y', u, v, hx, hy, h => by
    simp only [List.cons_append, List.cons.injEq] at h
    obtain ⟨rfl, h2⟩ := h
    obtain ⟨h3, h4⟩ := quote_split_unique (fun hm => hx (List.mem_cons_of_mem _ hm))
      (fun hm => hy (List.mem_cons_of_mem _ hm)) h2
    exact ⟨by rw [h3], h4⟩

/-- The scan of `re.sub` preserves the text before the first quote, and
preserves whether a quote occurs at all. -/
theorem subImports_quote_structure (F : Str → Str) : ∀ (u : Str),
    (subImports F u).takeWhile (· ≠ '"') = u.takeWhile (· ≠ '"') ∧
    ('"' ∈ subImports F u ↔ '"' ∈ u)
  | [] => ⟨rfl, by rfl⟩
  | c :: rest => by
    cases htm : tryMatch (c :: rest) with
    | some p =>
      obtain ⟨g, a⟩ := p
      obtain ⟨hs, hshape, hquote⟩ := tryMatch_some htm
      rw [subImports_match F htm]
      constructor
      · rw [hs]
        show (FROMQ ++ (F g ++ '"' :: subImports F a)).takeWhile (· ≠ '"')
          = (FROMQ ++ (g ++ '"' :: a)).takeWhile (· ≠ '"')
        show (('f' :: 'r' :: 'o' :: 'm' :: ' ' :: []) ++ '"' :: (F g ++ '"' :: subImports F a)).takeWhile (· ≠ '"')
          = (('f' :: 'r' :: 'o' :: 'm' :: ' ' :: []) ++ '"' :: (g ++ '"' :: a)).takeWhile (· ≠ '"')
        rw [takeWhile_quote_append (by decide), takeWhile_quote_append (by decide)]
      · constructor
        · intro _
          rw [hs]
          simp [FROMQ]
        · intro _
          simp [FROMQ]
    | none =>
      rw [subImports_cons_none F htm]
      obtain ⟨hA1, hA2⟩ := subImports_quote_structure F rest
      by_cases hc : c = '"'
      · subst hc
        refine ⟨by simp [List.takeWhile_cons], by simp⟩
      · constructor
        · show ((c :: subImports F rest).takeWhile (· ≠ '"'))
            = ((c :: rest).takeWhile (· ≠ '"'))
          rw [List.takeWhile_cons, List.takeWhile_cons, hA1]
        · simp [hc, hA2]

/-- The prefix of a quote-free string followed by a quote, as a `take`. -/
theorem take_pfxq_iff {p : Str} (hp : '"' ∉ p) (u : Str) :
    u.take (p.length + 1) = p ++ ('"' :: []) ↔ (u.takeWhile (· ≠ '"') = p ∧ '"' ∈ u) := by
  have hassoc : ∀ w : Str, (p ++ ('"' :: [])) ++ w = p ++ '"' :: w := by
    intro w
    rw [List.append_assoc]
    rfl
  constructor
  · intro h
    have hu : u = p ++ '"' :: u.drop (p.length + 1) := by
      conv_lhs => rw [← List.take_append_drop (p.length + 1) u, h]
      exact hassoc _
    constructor
    · rw [hu, takeWhile_quote_append hp]
    · rw [hu]
      exact List.mem_append.2 (Or.inr (by simp))
  · rintro ⟨hq, hmem⟩
    have hu : u = p ++ '"' :: (u.dropWhile (· ≠ '"')).tail := by
      conv_lhs => rw [← List.takeWhile_append_dropWhile (p := (· ≠ '"')) (l := u),
        dropWhile_quote_of_mem hmem, hq]
    conv_lhs => rw [hu, ← hassoc]
    exact List.take_left' (by simp)

theorem parseTail_eq_none_iff {pfx u : Str} : parseTail pfx u = none ↔
    ¬ ((u.dropWhile (· ≠ '"')) ≠ [] ∧ 4 ≤ (u.takeWhile (· ≠ '"')).length
      ∧ jsS <:+ u.takeWhile (· ≠ '"')) := by
  rw [parseTail]
  by_cases h : (u.dropWhile (· ≠ '"')) ≠ [] ∧ 4 ≤ (u.takeWhile (· ≠ '"')).length
      ∧ jsS <:+ u.takeWhile (· ≠ '"')
  · rw [if_pos h]
    exact ⟨fun hh => absurd hh (by simp), fun hh => (hh h).elim⟩
  · rw [if_neg h]
    exact ⟨fun _ => h, fun _ => rfl⟩

/-- A failing group-tail parse still fails after the tail is rewritten. -/
theorem parseTail_none_subImports (F : Str → Str) {pfx u : Str}
    (h : parseTail pfx u = none) : parseTail pfx (subImports F u) = none := by
  obtain ⟨hA1, hA2⟩ := subImports_quote_structure F u
  rw [parseTail_eq_none_iff] at h ⊢
  intro hcond
  obtain ⟨h1, h2, h3⟩ := hcond
  rw [hA1] at h2 h3
  refine h ⟨?_, h2, h3⟩
  rw [dropWhile_quote_ne_nil_iff] at h1 ⊢
  exact hA2.1 h1

/-- Prefixes made of characters that can neither begin a match nor be a
quote are seen identically by both passes. -/
theorem take_eq_subImports_iff (F : Str → Str) :
    ∀ (p : Str), (∀ c ∈ p, c ≠ 'f' ∧ c ≠ '"') → ∀ (u : Str),
    ((subImports F u).take p.length = p ↔ u.take p.length = p)
  | [], _, u => by simp
  | c :: p', hp, u => by
    cases u with
    | nil => rw [subImports_nil]
    | cons d rest =>
      cases htm : tryMatch (d :: rest) with
      | some q =>
        obtain ⟨g, a⟩ := q
        obtain ⟨hs, _, _⟩ := tryMatch_some htm
        have hd : d = 'f' := by
          have := congrArg List.head? hs
          simpa [FROMQ] using this
        rw [subImports_match F htm]
        simp only [List.length_cons]
        have hcons : FROMQ ++ F g ++ '"' :: subImports F a
            = 'f' :: (('r' :: 'o' :: 'm' :: ' ' :: '"' :: []) ++ F g
              ++ '"' :: subImports F a) := rfl
        rw [hcons, List.take_succ_cons, List.take_succ_cons]
        constructor
        · intro h
          rw [List.cons.injEq] at h
          exact absurd h.1.symm (hp c (by simp)).1
        · intro h
          rw [List.cons.injEq] at h
          exact absurd (h.1.symm.trans hd) (hp c (by simp)).1
      | none =>
        rw [subImports_cons_none F htm]
        show (d :: subImports F rest).take (p'.length + 1) = c :: p'
          ↔ (d :: rest).take (p'.length + 1) = c :: p'
        rw [List.take_succ_cons, List.take_succ_cons]
        constructor
        · intro h
          obtain ⟨h1, h2⟩ := List.cons.injEq .. ▸ h
          rw [List.cons.injEq]
          exact ⟨h1, (take_eq_subImports_iff F p'
            (fun x hx => hp x (by simp [hx])) rest).1 h2⟩
        · intro h
          obtain ⟨h1, h2⟩ := List.cons.injEq .. ▸ h
          rw [List.cons.injEq]
          exact ⟨h1, (take_eq_subImports_iff F p'
            (fun x hx => hp x (by simp [hx])) rest).2 h2⟩

/-- A failing whole-group parse still fails on the rewritten string. -/
theorem parseGroup_none_subImports (F : Str → Str) {r : Str}
    (h : parseGroup r = none) : parseGroup (subImports F r) = none := by
  have h3iff : ((subImports F r).take 3 = ('.' :: '.' :: '/' :: []))
      ↔ (r.take 3 = ('.' :: '.' :: '/' :: [])) :=
    take_eq_subImports_iff F ('.' :: '.' :: '/' :: []) (by decide) r
  have h2iff : ((subImports F r).take 2 = ('.' :: '/' :: []))
      ↔ (r.take 2 = ('.' :: '/' :: [])) :=
    take_eq_subImports_iff F ('.' :: '/' :: []) (by decide) r
  rw [parseGroup] at h ⊢
  by_cases h3 : r.take 3 = ('.' :: '.' :: '/' :: [])
  · rw [if_pos h3] at h
    rw [if_pos (h3iff.2 h3)]
    -- under the prefix, the drop of the rewrite is the rewrite of the drop
    have hr : r = ('.' :: '.' :: '/' :: []) ++ r.drop 3 := by
      conv_lhs => rw [← List.take_append_drop 3 r, h3]
    have hsub : subImports F r = ('.' :: '.' :: '/' :: []) ++ subImports F (r.drop 3) := by
      conv_lhs => rw [hr]
      exact subImports_inert_append F (by decide) _
    rw [hsub, List.drop_left' (by rfl)]
    exact parseTail_none_subImports F h
  · rw [if_neg h3] at h
    rw [if_neg (fun hh => h3 (h3iff.1 hh))]
    by_cases h2 : r.take 2 = ('.' :: '/' :: [])
    · rw [if_pos h2] at h
      rw [if_pos (h2iff.2 h2)]
      have hr : r = ('.' :: '/' :: []) ++ r.drop 2 := by
        conv_lhs => rw [← List.take_append_drop 2 r, h2]
      have hsub : subImports F r = ('.' :: '/' :: []) ++ subImports F (r.drop 2) := by
        conv_lhs => rw [hr]
        exact subImports_inert_append F (by decide) _
      rw [hsub, List.drop_left' (by rfl)]
      exact parseTail_none_subImports F h
    · rw [if_neg (fun hh => h2 (h2iff.1 hh))]

/-- A failing match attempt still fails on the rewritten tail. -/
theorem tryMatch_none_subImports (F : Str → Str) {c : Char} {rest : Str}
    (h : tryMatch (c :: rest) = none) : tryMatch (c :: subImports F rest) = none := by
  by_cases hc : c = 'f'
  swap
  · exact tryMatch_cons_ne _ hc
  subst hc
  obtain ⟨hA1, hA2⟩ := subImports_quote_structure F rest
  rw [tryMatch] at h ⊢
  have hiff : (('f' :: subImports F rest).take 6 = FROMQ) ↔ (('f' :: rest).take 6 = FROMQ) := by
    show (('f' :: subImports F rest).take (4 + 1 + 1) = FROMQ)
      ↔ (('f' :: rest).take (4 + 1 + 1) = FROMQ)
    rw [List.take_succ_cons, List.take_succ_cons]
    have hq1 := take_pfxq_iff (p := ('r' :: 'o' :: 'm' :: ' ' :: [])) (by decide)
      (subImports F rest)
    have hq2 := take_pfxq_iff (p := ('r' :: 'o' :: 'm' :: ' ' :: [])) (by decide) rest
    show ('f' :: (subImports F rest).take (4 + 1) = FROMQ)
      ↔ ('f' :: rest.take (4 + 1) = FROMQ)
    constructor
    · intro hh
      have : (subImports F rest).take (4 + 1) = ('r' :: 'o' :: 'm' :: ' ' :: []) ++ ('"' :: []) := by
        have := congrArg List.tail hh
        simpa [FROMQ] using this
      obtain ⟨ht, hm⟩ := hq1.1 this
      have : rest.take (4 + 1) = ('r' :: 'o' :: 'm' :: ' ' :: []) ++ ('"' :: []) :=
        hq2.2 ⟨by rw [← hA1]; exact ht, hA2.1 hm⟩
      rw [show (4 + 1) = 5 from rfl] at this
      rw [show (4 + 1) = 5 from rfl, this]
      rfl
    · intro hh
      have : rest.take (4 + 1) = ('r' :: 'o' :: 'm' :: ' ' :: []) ++ ('"' :: []) := by
        have := congrArg List.tail hh
        simpa [FROMQ] using this
      obtain ⟨ht, hm⟩ := hq2.1 this
      have : (subImports F rest).take (4 + 1) = ('r' :: 'o' :: 'm' :: ' ' :: []) ++ ('"' :: []) :=
        hq1.2 ⟨by rw [hA1]; exact ht, hA2.2 hm⟩
      rw [show (4 + 1) = 5 from rfl] at this
      rw [show (4 + 1) = 5 from rfl, this]
      rfl
  by_cases h6 : ('f' :: rest).take 6 = FROMQ
  · rw [if_pos h6] at h
    rw [if_pos (hiff.2 h6)]
    -- rest starts with `rom "`; peel it off both scans
    have hrest5 : rest.take 5 = ('r' :: 'o' :: 'm' :: ' ' :: '"' :: []) := by
      have := congrArg List.tail h6
      simpa [FROMQ] using this
    have hr : rest = ('r' :: 'o' :: 'm' :: ' ' :: '"' :: []) ++ rest.drop 5 := by
      conv_lhs => rw [← List.take_append_drop 5 rest, hrest5]
    have hsub : subImports F rest
        = ('r' :: 'o' :: 'm' :: ' ' :: '"' :: []) ++ subImports F (rest.drop 5) := by
      conv_lhs => rw [hr]
      exact subImports_inert_append F (by decide) _
    have hd6 : ('f' :: subImports F rest).drop 6 = subImports F (rest.drop 5) := by
      rw [hsub]
      rfl
    have hd6' : ('f' :: rest).drop 6 = rest.drop 5 := rfl
    rw [hd6]
    rw [hd6'] at h
    exact parseGroup_none_subImports F h
  · rw [if_neg h6] at h
    rw [if_neg (fun hh => h6 (hiff.1 hh))]

/-- Passing a quote-free replacement that does not end in `from ` (the only
way the closing quote could complete a new `from "`): the scanner walks
through it without matching. -/
theorem subImports_block (F : Str → Str) : ∀ {x : Str}, '"' ∉ x →
    ¬ ('f' :: 'r' :: 'o' :: 'm' :: ' ' :: []) <:+ x → ∀ (w : Str),
    subImports F (x ++ '"' :: w) = x ++ '"' :: subImports F w
  | [], _, _, w => by
    rw [List.nil_append, subImports_cons_none F (tryMatch_cons_ne _ (by decide))]
    rfl
  | c :: x', hq, hfrom, w => by
    have hq' : '"' ∉ x' := fun hm => hq (List.mem_cons_of_mem _ hm)
    have hfrom' : ¬ ('f' :: 'r' :: 'o' :: 'm' :: ' ' :: []) <:+ x' := fun hs =>
      hfrom (hs.trans (List.suffix_cons c x'))
    have htm : tryMatch (c :: (x' ++ '"' :: w)) = none := by
      by_cases hc : c = 'f'
      · subst hc
        rw [tryMatch, if_neg]
        intro h6
        rw [show (6 : Nat) = 4 + 1 + 1 from rfl, List.take_succ_cons] at h6
        have h5 : (x' ++ '"' :: w).take (4 + 1)
            = ('r' :: 'o' :: 'm' :: ' ' :: []) ++ ('"' :: []) := by
          have := congrArg List.tail h6
          simpa [FROMQ] using this
        obtain ⟨htw, _⟩ := (take_pfxq_iff (p := ('r' :: 'o' :: 'm' :: ' ' :: []))
          (by decide) (x' ++ '"' :: w)).1 h5
        rw [takeWhile_quote_append hq'] at htw
        apply hfrom
        rw [htw]
      · exact tryMatch_cons_ne _ hc
    rw [List.cons_append, subImports_cons_none F htm, subImports_block F hq' hfrom' w]
    rfl

theorem tryMatch_some_drop {c : Char} {rest g a : Str}
    (h : tryMatch (c :: rest) = some (g, a)) :
    ∀ i, a.drop i = (c :: rest).drop (FROMQ.length + g.length + 1 + i) := by
  obtain ⟨hs, _, _⟩ := tryMatch_some h
  intro i
  rw [hs]
  have hres : FROMQ ++ (g ++ '"' :: a) = (FROMQ ++ g ++ ('"' :: [])) ++ a := by
    simp
  rw [hres]
  have hlen : (FROMQ ++ g ++ ('"' :: [])).length = FROMQ.length + g.length + 1 := by
    simp
    omega
  rw [← hlen, List.drop_append]

/-- If the replacement fixes every matched group, the substitution is the
identity on the whole string. -/
theorem subImports_fix (F : Str → Str) : ∀ (n : Nat) (s : Str), s.length ≤ n →
    (∀ i g a, tryMatch (s.drop i) = some (g, a) → F g = g) → subImports F s = s := by
  intro n
  induction n with
  | zero =>
    intro s hn _
    rw [List.length_eq_zero.1 (Nat.le_zero.1 hn)]
    rfl
  | succ k ih =>
    intro s hn hfix
    cases s with
    | nil => rfl
    | cons c rest =>
      simp only [List.length_cons] at hn
      cases htm : tryMatch (c :: rest) with
      | none =>
        rw [subImports_cons_none F htm,
          ih rest (by omega) (fun i g a hi => hfix (i + 1) g a (by rwa [List.drop_succ_cons]))]
      | some p =>
        obtain ⟨g, a⟩ := p
        rw [subImports_match F htm]
        have hfg : F g = g := hfix 0 g a (by simpa using htm)
        obtain ⟨hs, hshape, hgq⟩ := tryMatch_some htm
        have halt := tryMatch_after_lt htm
        simp only [List.length_cons] at halt
        have hsuba : subImports F a = a := by
          refine ih a (by omega) ?_
          intro i g' a' hi
          refine hfix (FROMQ.length + g.length + 1 + i) g' a' ?_
          rwa [← tryMatch_some_drop htm i]
        rw [hfg, hsuba, hs, List.append_assoc]

/-- The central idempotence property of the rewrite pass: if the replacement
function produces quote-free, backslash-free strings that never end in
`from ` and are fixed by a second application, then applying the whole
substitution twice equals applying it once — provided every matched group in
the input is backslash-free. -/
theorem subImports_idem (F : Str → Str)
    (h1 : ∀ g, ImportShaped g → '\\' ∉ g → '"' ∉ F g)
    (h2 : ∀ g, ImportShaped g → '\\' ∉ g → ¬ ('f' :: 'r' :: 'o' :: 'm' :: ' ' :: []) <:+ F g)
    (h4 : ∀ g, ImportShaped g → '\\' ∉ g → F (F g) = F g) :
    ∀ (n : Nat) (s : Str), s.length ≤ n →
    (∀ i g a, tryMatch (s.drop i) = some (g, a) → '\\' ∉ g) →
    subImports F (subImports F s) = subImports F s := by
  intro n
  induction n with
  | zero =>
    intro s hn _
    rw [List.length_eq_zero.1 (Nat.le_zero.1 hn)]
    rfl
  | succ k ih =>
    intro s hn hclean
    cases s with
    | nil => rfl
    | cons c rest =>
      simp only [List.length_cons] at hn
      cases htm : tryMatch (c :: rest) with
      | none =>
        rw [subImports_cons_none F htm, subImports_cons_none F (tryMatch_none_subImports F htm),
          ih rest (by omega) (fun i g a hi => hclean (i + 1) g a (by rwa [List.drop_succ_cons]))]
      | some p =>
        obtain ⟨g, a⟩ := p
        have hgclean : '\\' ∉ g := hclean 0 g a (by simpa using htm)
        obtain ⟨hs, hshape, hgq⟩ := tryMatch_some htm
        have halt := tryMatch_after_lt htm
        simp only [List.length_cons] at halt
        rw [subImports_match F htm]
        have hFq : '"' ∉ F g := h1 g hshape hgclean
        have hstable : subImports F (subImports F a) = subImports F a := by
          refine ih a (by omega) ?_
          intro i g' a' hi
          refine hclean (FROMQ.length + g.length + 1 + i) g' a' ?_
          rwa [← tryMatch_some_drop htm i]
        have hassoc : FROMQ ++ F g ++ '"' :: subImports F a
            = FROMQ ++ (F g ++ '"' :: subImports F a) := by
          rw [List.append_assoc]
        cases pg : parseGroup (F g ++ '"' :: subImports F a) with
        | some p2 =>
          obtain ⟨g2, a2⟩ := p2
          obtain ⟨heq, hshape2, hq2⟩ := parseGroup_some pg
          obtain ⟨hg2, ha2⟩ := quote_split_unique hFq hq2 heq
          have htm2 : tryMatch (FROMQ ++ F g ++ '"' :: subImports F a)
              = some (F g, subImports F a) := by
            rw [hassoc, tryMatch_fromq, pg, ← hg2, ← ha2]
          rw [subImports_match F htm2, h4 g hshape hgclean, hstable]
        | none =>
          have htm2 : tryMatch (FROMQ ++ F g ++ '"' :: subImports F a) = none := by
            rw [hassoc, tryMatch_fromq, pg]
          have e1 : FROMQ ++ F g ++ '"' :: subImports F a
              = 'f' :: (('r' :: 'o' :: 'm' :: ' ' :: [])
                ++ ('"' :: (F g ++ '"' :: subImports F a))) := rfl
          rw [e1, subImports_cons_none F (by rw [← e1]; exact htm2),
            subImports_inert_append F (by decide),
            subImports_cons_none F (tryMatch_cons_ne _ (by decide)),
            subImports_block F hFq (h2 g hshape hgclean), hstable]

/-! ### The program's replacement function satisfies the idempotence
hypotheses -/

theorem ImportShaped.no_quote {g : Str} (h : ImportShaped g) : '"' ∉ g := by
  obtain ⟨pfx, q, hpfx, rfl, hq, _, _⟩ := h
  intro hm
  rcases List.mem_append.1 hm with hm | hm
  · rcases hpfx with rfl | rfl <;> exact absurd hm (by decide)
  · exact hq hm

theorem mem_swapSuffix {c : Char} {old new x : Str} (h : c ∈ swapSuffix old new x) :
    c ∈ x ∨ c ∈ new := by
  rw [swapSuffix] at h
  by_cases hs : old <:+ x
  · rw [if_pos hs] at h
    rcases List.mem_append.1 h with h | h
    · exact Or.inl ((List.take_sublist _ _).subset h)
    · exact Or.inr h
  · rw [if_neg hs] at h
    exact Or.inl h

theorem mem_replaceBS {c : Char} {x : Str} (h : c ∈ replaceBS x) :
    c = '/' ∨ (c ∈ x ∧ c ≠ '\\') := by
  rw [replaceBS] at h
  obtain ⟨d, hd, hc⟩ := List.mem_map.1 h
  by_cases hdb : d = '\\'
  · rw [if_pos hdb] at hc
    exact Or.inl hc.symm
  · rw [if_neg hdb] at hc
    exact Or.inr ⟨hc ▸ hd, hc ▸ hdb⟩

theorem replaceBS_no_bs (x : Str) : '\\' ∉ replaceBS x := by
  intro h
  rcases mem_replaceBS h with h | ⟨_, h⟩
  · exact absurd h (by decide)
  · exact h rfl

theorem splitSlash_ne_nil : ∀ (x : Str), splitSlash x ≠ []
  | [] => by simp [splitSlash]
  | c :: r => by
    rw [splitSlash]
    split
    · simp
    · split
      · simp
      · simp

theorem mem_splitSlash_no_slash : ∀ {x s : Str}, s ∈ splitSlash x → '/' ∉ s
  | [], s, h => by
    simp only [splitSlash, List.mem_singleton] at h
    subst h
    simp
  | c :: r, s, h => by
    rw [splitSlash] at h
    by_cases hc : c = '/'
    · rw [if_pos hc] at h
      rcases List.mem_cons.1 h with rfl | hmem
      · simp
      · exact mem_splitSlash_no_slash hmem
    · rw [if_neg hc] at h
      cases hsp : splitSlash r with
      | nil => exact absurd hsp (splitSlash_ne_nil r)
      | cons hh tt =>
        rw [hsp] at h
        rcases List.mem_cons.1 h with rfl | hmem
        · intro hm
          rcases List.mem_cons.1 hm with he | hm
          · exact hc he.symm
          · exact mem_splitSlash_no_slash (hsp ▸ List.mem_cons_self hh tt) hm
        · exact mem_splitSlash_no_slash (hsp ▸ List.mem_cons_of_mem hh hmem)

theorem mem_of_mem_splitSlash {c : Char} : ∀ {x s : Str}, s ∈ splitSlash x → c ∈ s → c ∈ x
  | [], s, h, hc => by
    simp only [splitSlash, List.mem_singleton] at h
    subst h
    simp at hc
  | d :: r, s, h, hc => by
    rw [splitSlash] at h
    by_cases hd : d = '/'
    · rw [if_pos hd] at h
      rcases List.mem_cons.1 h with rfl | hmem
      · simp at hc
      · exact List.mem_cons_of_mem _ (mem_of_mem_splitSlash hmem hc)
    · rw [if_neg hd] at h
      cases hsp : splitSlash r with
      | nil => exact absurd hsp (splitSlash_ne_nil r)
      | cons hh tt =>
        rw [hsp] at h
        rcases List.mem_cons.1 h with rfl | hmem
        · rcases List.mem_cons.1 hc with rfl | hmem2
          · simp
          · exact List.mem_cons_of_mem _
              (mem_of_mem_splitSlash (hsp ▸ List.mem_cons_self hh tt) hmem2)
        · exact List.mem_cons_of_mem _
            (mem_of_mem_splitSlash (hsp ▸ List.mem_cons_of_mem hh hmem) hc)

/-- The final `/`-separated piece of a string carries any separator-free
suffix of the whole string. -/
theorem suffix_getLast_splitSlash {p : Str} (hp : '/' ∉ p) :
    ∀ {x z : Str}, p <:+ x → (splitSlash x).getLast? = some z → p <:+ z
  | [], z, hsuf, hz => by
    simp only [splitSlash, List.getLast?_singleton, Option.some.injEq] at hz
    obtain rfl := hz.symm
    exact hsuf
  | c :: r, z, hsuf, hz => by
    rw [splitSlash] at hz
    by_cases hc : c = '/'
    · rw [if_pos hc] at hz
      have hz' : (splitSlash r).getLast? = some z := by
        rw [show ([] :: splitSlash r) = ([] :: []) ++ splitSlash r from rfl,
          List.getLast?_append_of_ne_nil _ (splitSlash_ne_nil r)] at hz
        exact hz
      rcases List.suffix_cons_iff.1 hsuf with rfl | hsuf'
      · exact absurd (hc ▸ List.mem_cons_self c r) hp
      · exact suffix_getLast_splitSlash hp hsuf' hz'
    · rw [if_neg hc] at hz
      cases hsp : splitSlash r with
      | nil => exact absurd hsp (splitSlash_ne_nil r)
      | cons hh tt =>
        rw [hsp] at hz
        cases tt with
        | nil =>
          simp only [List.getLast?_singleton, Option.some.injEq] at hz
          obtain rfl := hz.symm
          rcases List.suffix_cons_iff.1 hsuf with rfl | hsuf'
          · -- the whole string is one separator-free piece
            have hr : '/' ∉ r := fun hm => hp (List.mem_cons_of_mem c hm)
            have := splitSlash_noSlash hr
            rw [this] at hsp
            have h1 : r = hh := by
              injection hsp
            rw [← h1]
          · have hz' : (splitSlash r).getLast? = some hh := by
              rw [hsp]
              rfl
            exact (suffix_getLast_splitSlash hp hsuf' hz').trans (List.suffix_cons c hh)
        | cons t0 tt' =>
          rw [List.getLast?_cons_cons] at hz
          have hz' : (splitSlash r).getLast? = some z := by
            rw [hsp, List.getLast?_cons_cons]
            exact hz
          rcases List.suffix_cons_iff.1 hsuf with rfl | hsuf'
          · have hr : '/' ∉ r := fun hm => hp (List.mem_cons_of_mem c hm)
            rw [splitSlash_noSlash hr] at hsp
            exact absurd hsp.symm (by simp)
          · exact suffix_getLast_splitSlash hp hsuf' hz'

theorem foldl_normStep_mem {s : Str} : ∀ {l : List Str} {q : Path},
    s ∈ l.foldl normStep q → s ∈ q ∨ (s ∈ l ∧ cleanSeg s)
  | [], _, h => Or.inl h
  | x :: l', acc, h => by
    rcases foldl_normStep_mem (l := l') (q := normStep acc x) h with h' | ⟨hm, hc⟩
    · by_cases h1 : x = [] ∨ x = ['.']
      · rw [normStep, if_pos h1] at h'
        exact Or.inl h'
      · by_cases h2 : x = ['.', '.']
        · rw [normStep, if_neg h1, if_pos h2] at h'
          exact Or.inl ((List.dropLast_sublist acc).subset h')
        · rw [normStep, if_neg h1, if_neg h2] at h'
          rcases List.mem_append.1 h' with h'' | h''
          · exact Or.inl h''
          · have hx := List.mem_singleton.1 h''
            subst hx
            exact Or.inr ⟨List.mem_cons_self _ _,
              fun he => h1 (Or.inl he), fun he => h1 (Or.inr he), h2⟩
    · exact Or.inr ⟨List.mem_cons_of_mem _ hm, hc⟩

theorem head_swap_shaped {g : Str} (hg : ImportShaped g) :
    (swapSuffix jsS tsS g).head? = some '.' := by
  obtain ⟨pfx, q, hpfx, rfl, _, hlen, hjs⟩ := hg
  have hfire : jsS <:+ pfx ++ q := hjs.trans (List.suffix_append pfx q)
  rw [swapSuffix_pos hfire]
  rcases hpfx with rfl | rfl
  · obtain ⟨m, hm⟩ : ∃ m, (('.' :: '.' :: '/' :: []) ++ q).length - jsS.length = m + 1 :=
      ⟨(('.' :: '.' :: '/' :: []) ++ q).length - jsS.length - 1, by
        simp only [List.length_append, List.length_cons, List.length_nil, jsS]
        omega⟩
    rw [hm, show (('.' :: '.' :: '/' :: []) ++ q) = '.' :: (('.' :: '/' :: []) ++ q) from rfl,
      List.take_succ_cons]
    rfl
  · obtain ⟨m, hm⟩ : ∃ m, (('.' :: '/' :: []) ++ q).length - jsS.length = m + 1 :=
      ⟨(('.' :: '/' :: []) ++ q).length - jsS.length - 1, by
        simp only [List.length_append, List.length_cons, List.length_nil, jsS]
        omega⟩
    rw [hm, show (('.' :: '/' :: []) ++ q) = '.' :: (('/' :: []) ++ q) from rfl,
      List.take_succ_cons]
    rfl

theorem resolve_import_shaped {f : Path} {g : Str} (hg : ImportShaped g) :
    resolve_import f g = normAbs (dirname f ++ splitSlash (swapSuffix jsS tsS g)) := by
  show (if (swapSuffix jsS tsS g).head? = some '/'
      then normAbs (splitSlash (swapSuffix jsS tsS g))
      else normAbs (dirname f ++ splitSlash (swapSuffix jsS tsS g))) = _
  rw [if_neg (by rw [head_swap_shaped hg]; decide)]

/-- The resolved target of a matched, backslash-free import is a well-formed
normalized absolute path ending in `.ts`. -/
theorem resolve_import_clean {f : Path} {g : Str} (hf : wfPath f) (hg : ImportShaped g)
    (hbs : '\\' ∉ g) : wfPath (resolve_import f g) ∧ endsTs (resolve_import f g) := by
  have hq : '"' ∉ g := hg.no_quote
  have hfire : jsS <:+ g := hg.js_suffix
  have hts : tsS <:+ swapSuffix jsS tsS g := suffix_swapSuffix hfire
  have hchars : ∀ c ∈ swapSuffix jsS tsS g, c ∈ g ∨ c ∈ tsS := fun c hc => mem_swapSuffix hc
  have hg'q : '"' ∉ swapSuffix jsS tsS g := by
    intro hm
    rcases hchars _ hm with h | h
    · exact hq h
    · exact absurd h (by decide)
  have hg'bs : '\\' ∉ swapSuffix jsS tsS g := by
    intro hm
    rcases hchars _ hm with h | h
    · exact hbs h
    · exact absurd h (by decide)
  have hne := splitSlash_ne_nil (swapSuffix jsS tsS g)
  obtain ⟨z, hz⟩ : ∃ z, (splitSlash (swapSuffix jsS tsS g)).getLast? = some z := by
    cases hl : (splitSlash (swapSuffix jsS tsS g)).getLast? with
    | none => exact absurd (List.getLast?_eq_none_iff.1 hl) hne
    | some z => exact ⟨z, rfl⟩
  have hzts : tsS <:+ z := suffix_getLast_splitSlash (by decide) hts hz
  have hzlast : z.getLast? = some 's' := by
    rw [getLast?_of_suffix hzts (by decide)]
    rfl
  have hzclean : cleanSeg z := by
    refine ⟨?_, ?_, ?_⟩
    · intro he
      rw [he] at hzlast
      exact absurd hzlast (by simp)
    · intro he
      rw [he] at hzlast
      exact absurd hzlast (by simp)
    · intro he
      rw [he] at hzlast
      exact absurd hzlast (by simp)
  have hsplit : splitSlash (swapSuffix jsS tsS g)
      = (splitSlash (swapSuffix jsS tsS g)).dropLast ++ [z] := by
    conv_lhs => rw [← List.dropLast_append_getLast? z hz]
  rw [resolve_import_shaped hg]
  have hform : normAbs (dirname f ++ splitSlash (swapSuffix jsS tsS g))
      = ((dirname f ++ (splitSlash (swapSuffix jsS tsS g)).dropLast).foldl normStep []) ++ [z] := by
    conv_lhs => rw [hsplit]
    rw [normAbs, ← List.append_assoc, List.foldl_append]
    show normStep _ z = _
    rw [normStep_clean _ hzclean]
  constructor
  · intro s hs
    rcases foldl_normStep_mem (l := dirname f ++ splitSlash (swapSuffix jsS tsS g))
        (q := []) (by rw [← normAbs]; exact hs) with h | ⟨hm, hcl⟩
    · simp at h
    · rcases List.mem_append.1 hm with hmf | hmg
      · exact wfPath_dirname hf s hmf
      · refine ⟨hcl.1, hcl.2.1, hcl.2.2, mem_splitSlash_no_slash hmg, ?_, ?_⟩
        · intro hc
          exact hg'bs (mem_of_mem_splitSlash hmg hc)
        · intro hc
          exact hg'q (mem_of_mem_splitSlash hmg hc)
  · rw [endsTs, hform, List.getLastD_eq_getLast?, List.getLast?_append_of_ne_nil _ (by simp)]
    simpa using hzts

theorem render_ne_nil {l : List Str} {s0 : Str} (h : l.head? = some s0) (hs : s0 ≠ []) :
    render l ≠ [] := by
  cases l with
  | nil => simp at h
  | cons a r =>
    have ha : a = s0 := by simpa using h
    subst ha
    cases r with
    | nil => exact hs
    | cons b r' => exact List.append_ne_nil_of_left_ne_nil hs _

theorem mem_relpathStr {c : Char} {t D : Path} (h : c ∈ relpathStr t D) :
    c = '/' ∨ c = '.' ∨ ∃ s ∈ t, c ∈ s := by
  rw [relpathStr] at h
  by_cases hA : relSegs t D = []
  · simp only [hA, if_pos rfl] at h
    right
    left
    simpa using h
  · simp only [if_neg hA] at h
    rcases mem_render h with h | ⟨s, hs, hcs⟩
    · exact Or.inl h
    · rcases mem_relSegs hs with rfl | hmem
      · right
        left
        rcases List.mem_cons.1 hcs with rfl | hcs'
        · rfl
        · simpa using hcs'
      · exact Or.inr (Or.inr ⟨s, hmem, hcs⟩)

theorem mem_relBase {c : Char} {f t : Path} (h : c ∈ relBase f t) :
    c = '/' ∨ c = '.' ∨ c = 'j' ∨ c = 's' ∨ ∃ s ∈ t, (c ∈ s ∧ c ≠ '\\') := by
  rw [relBase] at h
  rcases mem_swapSuffix h with h | h
  · rcases mem_replaceBS h with h | ⟨h, hbs⟩
    · exact Or.inl h
    · rcases mem_relpathStr h with h | h | ⟨s, hs, hcs⟩
      · exact Or.inl h
      · exact Or.inr (Or.inl h)
      · exact Or.inr (Or.inr (Or.inr (Or.inr ⟨s, hs, hcs, hbs⟩)))
  · rcases List.mem_cons.1 h with rfl | h
    · exact Or.inr (Or.inl rfl)
    · rcases List.mem_cons.1 h with rfl | h
      · exact Or.inr (Or.inr (Or.inl rfl))
      · rcases List.mem_cons.1 h with rfl | h
        · exact Or.inr (Or.inr (Or.inr (Or.inl rfl)))
        · simp at h

theorem mem_make_relative {c : Char} {f t : Path} (h : c ∈ make_relative f t) :
    c = '/' ∨ c = '.' ∨ c = 'j' ∨ c = 's' ∨ ∃ s ∈ t, (c ∈ s ∧ c ≠ '\\') := by
  rw [make_relative] at h
  by_cases hh : (relBase f t).head? = some '.'
  · rw [if_pos hh] at h
    exact mem_relBase h
  · rw [if_neg hh] at h
    rcases List.mem_cons.1 h with rfl | h
    · exact Or.inr (Or.inl rfl)
    · rcases List.mem_cons.1 h with rfl | h
      · exact Or.inl rfl
      · exact mem_relBase h

theorem make_relative_no_quote {f t : Path} (ht : wfPath t) : '"' ∉ make_relative f t := by
  intro h
  rcases mem_make_relative h with h | h | h | h | ⟨s, hs, hcs, _⟩
  · exact absurd h (by decide)
  · exact absurd h (by decide)
  · exact absurd h (by decide)
  · exact absurd h (by decide)
  · exact (ht s hs).2.2.2.2.2 hcs

theorem make_relative_no_bs (f t : Path) : '\\' ∉ make_relative f t := by
  intro h
  rcases mem_make_relative h with h | h | h | h | ⟨s, hs, hcs, hne⟩
  · exact absurd h (by decide)
  · exact absurd h (by decide)
  · exact absurd h (by decide)
  · exact absurd h (by decide)
  · exact hne rfl

theorem relBase_getLast {f t : Path} (_ht : wfPath t) (htts : endsTs t) :
    (relBase f t).getLast? = some '.' ∨ (relBase f t).getLast? = some 's' := by
  have htne : t ≠ [] := endsTs_ne_nil htts
  rw [relBase]
  by_cases hA : relSegs t (dirname f) = []
  · have hrp : relpathStr t (dirname f) = ('.' :: []) := by
      simp [relpathStr, hA]
    rw [hrp, replaceBS_id (by decide), swapSuffix_of_not (by decide)]
    left
    rfl
  · have hrp : relpathStr t (dirname f) = render (relSegs t (dirname f)) := by
      simp [relpathStr, hA]
    rw [hrp]
    -- last character of the rendered relative path: '.' for "..", 's' for the
    -- `.ts`-ending final segment of the target
    obtain ⟨sl, hsl⟩ : ∃ sl, (relSegs t (dirname f)).getLast? = some sl := by
      cases hl : (relSegs t (dirname f)).getLast? with
      | none => exact absurd (List.getLast?_eq_none_iff.1 hl) hA
      | some x => exact ⟨x, rfl⟩
    have hsl_cases : sl = ('.' :: '.' :: []) ∨ (tsS <:+ sl ∧ sl ≠ []) := by
      rw [relSegs] at hsl
      by_cases hdrop : t.drop (commonPrefixLen (dirname f) t) = []
      · left
        rw [hdrop, List.append_nil, List.getLast?_replicate] at hsl
        by_cases hn : (dirname f).length - commonPrefixLen (dirname f) t = 0
        · rw [if_pos hn] at hsl
          simp at hsl
        · rw [if_neg hn] at hsl
          simpa using hsl.symm
      · right
        rw [List.getLast?_append_of_ne_nil _ hdrop] at hsl
        have hlt : t.getLast? = some sl := by
          rw [← List.take_append_drop (commonPrefixLen (dirname f) t) t,
            List.getLast?_append_of_ne_nil _ hdrop]
          exact hsl
        have := htts
        rw [endsTs, List.getLastD_eq_getLast?, hlt] at this
        refine ⟨this, ?_⟩
        intro he
        rw [he] at this
        exact absurd this.length_le (by decide)
    have hlast : (render (relSegs t (dirname f))).getLast? = sl.getLast? := by
      refine getLast?_render hsl ?_
      rcases hsl_cases with rfl | ⟨_, hne⟩
      · simp
      · exact hne
    have hrb : (replaceBS (render (relSegs t (dirname f)))).getLast?
        = (render (relSegs t (dirname f))).getLast?.map (fun c => if c = '\\' then '/' else c) := by
      rw [replaceBS, List.getLast?_map]
    rcases hsl_cases with rfl | ⟨hts, hne⟩
    · -- ends in "..": the swap does not fire, last char '.'
      have hg : (replaceBS (render (relSegs t (dirname f)))).getLast? = some '.' := by
        rw [hrb, hlast]
        rfl
      rw [swapSuffix_of_not (fun hsfx => by
        have := getLast?_of_suffix hsfx (by decide)
        rw [hg] at this
        exact absurd this (by decide))]
      exact Or.inl hg
    · -- ends in the `.ts` segment: last char 's' before and after the swap
      have hg : (replaceBS (render (relSegs t (dirname f)))).getLast? = some 's' := by
        rw [hrb, hlast, getLast?_of_suffix hts (by decide)]
        rfl
      by_cases hsfx : tsS <:+ replaceBS (render (relSegs t (dirname f)))
      · rw [swapSuffix_pos hsfx]
        right
        rw [List.getLast?_append_of_ne_nil _ (by simp [jsS])]
        rfl
      · rw [swapSuffix_of_not hsfx]
        exact Or.inr hg

theorem make_relative_not_from {f t : Path} (ht : wfPath t) (htts : endsTs t) :
    ¬ ('f' :: 'r' :: 'o' :: 'm' :: ' ' :: []) <:+ make_relative f t := by
  have hrbne : relBase f t ≠ [] := by
    intro he
    rcases relBase_getLast ht htts with h | h <;> rw [he] at h <;> simp at h
  intro h
  have hlast := getLast?_of_suffix h (by decide)
  have hml : (make_relative f t).getLast? = (relBase f t).getLast? := by
    rw [make_relative]
    by_cases hh : (relBase f t).head? = some '.'
    · rw [if_pos hh]
    · rw [if_neg hh,
        show ('.' :: '/' :: relBase f t) = ('.' :: '/' :: []) ++ relBase f t from rfl,
        List.getLast?_append_of_ne_nil _ hrbne]
  rw [hml] at hlast
  rcases relBase_getLast ht htts with hg | hg <;> rw [hg] at hlast <;>
    exact absurd hlast (by decide)

theorem allMatchesB_spec {P : Str → Bool} {c : Str} (h : allMatchesB P c = true) :
    ∀ i g a, tryMatch (c.drop i) = some (g, a) → P g = true := by
  intro i g a htm
  by_cases hi : i < c.length
  · have := List.all_eq_true.1 h i (List.mem_range.2 hi)
    rw [htm] at this
    exact this
  · rw [List.drop_eq_nil_iff.2 (by omega), tryMatch_nil] at htm
    cases htm

theorem updatesOf_singleton (f : Path) (cnt : Str) (moves : Moves) :
    updatesOf [(f, cnt)] moves
      = if newContentOf f moves cnt ≠ cnt ∨ new_path_of f moves ≠ f
        then [(f, new_path_of f moves, newContentOf f moves cnt)] else [] := by
  by_cases hcond : newContentOf f moves cnt ≠ cnt ∨ new_path_of f moves ≠ f
  · rw [if_pos hcond, updatesOf,
      List.filterMap_cons_some (b := (f, new_path_of f moves, newContentOf f moves cnt))
        (by rw [updateEntry, if_pos hcond]),
      List.filterMap_nil]
  · rw [if_neg hcond, updatesOf, List.filterMap_cons_none (by rw [updateEntry, if_neg hcond]),
      List.filterMap_nil]

/-! ### Claim C4 -/

/-- C4 counterexample: with the empty move mapping and file `/a/b/f.ts`, the
content `import z from "../b\c.js";` is rewritten to
`import z from "../b/c.js";` by the first pass (the backslash is converted to
a separator by `make_relative`) and to `import z from "./c.js";` by the
second, so one application and two applications differ. -/
theorem c4_counterexample :
    newContentOf ["a".data, "b".data, "f.ts".data] []
        (newContentOf ["a".data, "b".data, "f.ts".data] []
          ("import z from \"../b\\c.js\";".data))
      ≠ newContentOf ["a".data, "b".data, "f.ts".data] []
          ("import z from \"../b\\c.js\";".data) := by
  decide

/-- C4 amended: for every well-formed file path and every content string in
which every matched import path is backslash-free, applying the per-file
rewrite with an empty move mapping twice gives the same result as applying it
once, and a second run against the once-rewritten content records no update
entry. -/
theorem c4_idempotent (f : Path) (hf : wfPath f) (c : Str) (hc : cleanB c = true) :
    newContentOf f [] (newContentOf f [] c) = newContentOf f [] c ∧
    updatesOf [(f, newContentOf f [] c)] [] = [] := by
  have hclean1 : ∀ g, ImportShaped g → '\\' ∉ g →
      wfPath (resolve_import f g) ∧ endsTs (resolve_import f g) :=
    fun g hg hbs => resolve_import_clean hf hg hbs
  have key : subImports (replImport f f []) (subImports (replImport f f []) c)
      = subImports (replImport f f []) c := by
    refine subImports_idem (replImport f f []) ?_ ?_ ?_ c.length c (Nat.le_refl _) ?_
    · intro g hg hbs
      exact make_relative_no_quote (hclean1 g hg hbs).1
    · intro g hg hbs
      exact make_relative_not_from (hclean1 g hg hbs).1 (hclean1 g hg hbs).2
    · intro g hg hbs
      show make_relative f (resolve_import f (make_relative f (resolve_import f g)))
        = make_relative f (resolve_import f g)
      rw [resolve_make_relative hf (hclean1 g hg hbs).1 (hclean1 g hg hbs).2]
    · intro i g a htm
      have hPg := allMatchesB_spec hc i g a htm
      simpa using hPg
  have hfirst : newContentOf f [] (newContentOf f [] c) = newContentOf f [] c := key
  refine ⟨hfirst, ?_⟩
  rw [updatesOf_singleton, if_neg]
  intro hor
  rcases hor with h | h
  · exact h hfirst
  · exact h rfl

/-- Witness for C4 (amended) at a concrete file and content. -/
theorem c4_idempotent_witness :
    newContentOf ["r".data, "src".data, "b.ts".data] []
        (newContentOf ["r".data, "src".data, "b.ts".data] []
          ("import x from \"././a.js\";".data))
      = newContentOf ["r".data, "src".data, "b.ts".data] []
          ("import x from \"././a.js\";".data) :=
  (c4_idempotent ["r".data, "src".data, "b.ts".data] (by decide)
    ("import x from \"././a.js\";".data) (by decide)).1

/-! ### Claim C5 -/

/-- C5 counterexample: with the empty move mapping (so no file and no import
target is a key), the file `/r/src/b.ts` with content
`import x from "././a.js";` — whose single relative import resolves to the
unmoved `/r/src/a.ts` — is still rewritten (to the canonical `./a.js`), and
an update entry for it is recorded. -/
theorem c5_counterexample :
    lookupMove (resolve_import ["r".data, "src".data, "b.ts".data] ("././a.js".data))
        ([] : Moves) = none ∧
    lookupMove ["r".data, "src".data, "b.ts".data] ([] : Moves) = none ∧
    updatesOf [(["r".data, "src".data, "b.ts".data],
        ("import x from \"././a.js\";".data))] []
      = [(["r".data, "src".data, "b.ts".data], ["r".data, "src".data, "b.ts".data],
          ("import x from \"./a.js\";".data))] := by
  decide

/-- C5 amended: a discovered file that is not a key of the move mapping, and
whose every matched import is already the canonical relative reference
(`make_relative` of its resolved target) to a file that is not a key, keeps
its content byte-for-byte and contributes no entry to the updates mapping. -/
theorem c5_no_spurious_update (f : Path) (moves : Moves) (c : Str)
    (hf : lookupMove f moves = none)
    (himp : allMatchesB (fun g => decide (lookupMove (resolve_import f g) moves = none
        ∧ make_relative f (resolve_import f g) = g)) c = true) :
    newContentOf f moves c = c ∧ updatesOf [(f, c)] moves = [] := by
  have hnp : new_path_of f moves = f := by
    rw [new_path_of, hf]
    rfl
  have hmain : newContentOf f moves c = c := by
    show subImports (replImport f (new_path_of f moves) moves) c = c
    refine subImports_fix _ c.length c (Nat.le_refl _) ?_
    intro i g a htm
    have hgood := of_decide_eq_true (allMatchesB_spec himp i g a htm)
    show make_relative (new_path_of f moves) (new_path_of (resolve_import f g) moves) = g
    rw [hnp, new_path_of, hgood.1]
    exact hgood.2
  refine ⟨hmain, ?_⟩
  rw [updatesOf_singleton, if_neg]
  intro hor
  rcases hor with h | h
  · exact h hmain
  · exact h hnp

/-- Witness for C5 (amended): an already-canonical import of an unmoved file
inside an unmoved file, with a nonempty move mapping elsewhere. -/
theorem c5_no_spurious_update_witness :
    newContentOf ["r".data, "src".data, "b.ts".data]
        [(["r".data, "src".data, "x.ts".data], ["r".data, "src".data, "y.ts".data])]
        ("import x from \"./a.js\";".data)
      = ("import x from \"./a.js\";".data) ∧
    updatesOf [(["r".data, "src".data, "b.ts".data], ("import x from \"./a.js\";".data))]
        [(["r".data, "src".data, "x.ts".data], ["r".data, "src".data, "y.ts".data])]
      = [] :=
  c5_no_spurious_update ["r".data, "src".data, "b.ts".data]
    [(["r".data, "src".data, "x.ts".data], ["r".data, "src".data, "y.ts".data])]
    ("import x from \"./a.js\";".data) (by decide) (by decide)

/-! ### Claim C6 -/

/-- C6: a file whose content contains no match of the relative-import pattern
keeps its content unchanged — its computed new content is its original
content, and whatever update entry exists for it (it is recorded when the
file itself is moved) carries the original content, so the content written
for it is byte-for-byte the original. -/
theorem c6_no_match_content_preserved (f : Path) (moves : Moves) (c : Str)
    (h : noImportB c = true) :
    newContentOf f moves c = c ∧ ∀ e ∈ updatesOf [(f, c)] moves, e.2.2 = c := by
  have hnone : ∀ i g a, tryMatch (c.drop i) = some (g, a) → False := by
    intro i g a htm
    have := allMatchesB_spec h i g a htm
    simp at this
  have hmain : newContentOf f moves c = c :=
    subImports_fix _ c.length c (Nat.le_refl _)
      (fun i g a hi => absurd hi fun hh => hnone i g a hh)
  refine ⟨hmain, ?_⟩
  intro e he
  rw [updatesOf_singleton] at he
  by_cases hcond : newContentOf f moves c ≠ c ∨ new_path_of f moves ≠ f
  · rw [if_pos hcond] at he
    have he' := List.mem_singleton.1 he
    subst he'
    exact hmain
  · rw [if_neg hcond] at he
    simp at he

/-- Witness for C6: a moved file with only a non-relative import. -/
theorem c6_witness :
    newContentOf ["r".data, "src".data, "a.ts".data]
        [(["r".data, "src".data, "a.ts".data], ["r".data, "src".data, "sub".data, "a.ts".data])]
        ("import q from \"pkg\";".data)
      = ("import q from \"pkg\";".data) :=
  (c6_no_match_content_preserved ["r".data, "src".data, "a.ts".data]
    [(["r".data, "src".data, "a.ts".data], ["r".data, "src".data, "sub".data, "a.ts".data])]
    ("import q from \"pkg\";".data) (by decide)).1

/-! ### Claim C2 -/

theorem cpl_self_append : ∀ (l m : List Str), commonPrefixLen l (l ++ m) = l.length
  | [], m => by
    cases m <;> simp [commonPrefixLen]
  | a :: l', m => by
    rw [List.cons_append, commonPrefixLen, if_pos rfl, cpl_self_append l' m]
    rfl

theorem cpl_append_left : ∀ (l a b : List Str),
    commonPrefixLen (l ++ a) (l ++ b) = l.length + commonPrefixLen a b
  | [], a, b => by simp
  | x :: l', a, b => by
    rw [List.cons_append, List.cons_append, commonPrefixLen, if_pos rfl,
      cpl_append_left l' a b]
    simp
    omega

theorem dirname_concat (l : Path) (x : Str) : dirname (l ++ [x]) = l := by
  rw [dirname, List.dropLast_concat]

/-- Normalization is the identity on a clean segment list. -/
theorem normAbs_clean {l : List Str} (h : ∀ s ∈ l, cleanSeg s) : normAbs l = l := by
  rw [normAbs, foldl_normStep_clean h, List.nil_append]

/-- C2: the two end-to-end rewrite scenarios for the move mapping
`a.ts ↦ sub/a.ts` under an arbitrary well-formed root `base`:
(1) the unmoved file `b.ts` importing `./a.js` has the import rewritten to
`./sub/a.js`; (2) the moved file `a.ts` (rewritten against its new location
`sub/a.ts`) importing `./b.js` has the import rewritten to `../b.js`. -/
theorem c2_scenarios (base : Path) (hb : wfPath base) :
    newContentOf (base ++ ["b.ts".data])
        [(base ++ ["a.ts".data], base ++ ["sub".data, "a.ts".data])]
        ("from \"./a.js\"".data)
      = ("from \"./sub/a.js\"".data) ∧
    newContentOf (base ++ ["a.ts".data])
        [(base ++ ["a.ts".data], base ++ ["sub".data, "a.ts".data])]
        ("from \"./b.js\"".data)
      = ("from \"../b.js\"".data) := by
  have hbclean : ∀ s ∈ base, cleanSeg s := fun s hs => (hb s hs).clean
  have hb_ne_a : ¬ (base ++ ["a.ts".data]) = (base ++ ["b.ts".data]) := by
    rw [List.append_right_inj]
    decide
  have hb_ne_bts : ¬ (base ++ ["a.ts".data]) = (base ++ ["b.ts".data]) := hb_ne_a
  constructor
  · -- scenario 1
    have hnp : new_path_of (base ++ ["b.ts".data])
        [(base ++ ["a.ts".data], base ++ ["sub".data, "a.ts".data])] = base ++ ["b.ts".data] := by
      rw [new_path_of, lookupMove, if_neg hb_ne_a, lookupMove]
      rfl
    have hres : resolve_import (base ++ ["b.ts".data]) ("./a.js".data)
        = base ++ ["a.ts".data] := by
      show (if (swapSuffix jsS tsS ("./a.js".data)).head? = some '/'
          then normAbs (splitSlash (swapSuffix jsS tsS ("./a.js".data)))
          else normAbs (dirname (base ++ ["b.ts".data])
            ++ splitSlash (swapSuffix jsS tsS ("./a.js".data)))) = _
      rw [if_neg (by decide), dirname_concat,
        show splitSlash (swapSuffix jsS tsS ("./a.js".data))
          = [".".data, "a.ts".data] from by decide,
        normAbs, List.foldl_append, foldl_normStep_clean hbclean [], List.nil_append,
        show ([".".data, "a.ts".data] : List Str) = ('.' :: []) :: ["a.ts".data] from rfl,
        foldl_normStep_dot, List.foldl_cons, normStep_clean _ (by decide), List.foldl_nil]
    have htgt : new_path_of (base ++ ["a.ts".data])
        [(base ++ ["a.ts".data], base ++ ["sub".data, "a.ts".data])]
        = base ++ ["sub".data, "a.ts".data] := by
      rw [new_path_of, lookupMove, if_pos rfl]
      rfl
    have hrs : relSegs (base ++ ["sub".data, "a.ts".data]) base
        = ["sub".data, "a.ts".data] := by
      rw [relSegs, cpl_self_append, Nat.sub_self, List.replicate_zero, List.nil_append,
        List.drop_left]
    have hrp : relpathStr (base ++ ["sub".data, "a.ts".data]) base = ("sub/a.ts".data) := by
      show (if relSegs (base ++ ["sub".data, "a.ts".data]) base = []
        then ['.'] else render (relSegs (base ++ ["sub".data, "a.ts".data]) base)) = _
      rw [hrs, if_neg (by decide)]
      decide
    have hmr : make_relative (base ++ ["b.ts".data]) (base ++ ["sub".data, "a.ts".data])
        = ("./sub/a.js".data) := by
      have hrb : relBase (base ++ ["b.ts".data]) (base ++ ["sub".data, "a.ts".data])
          = ("sub/a.js".data) := by
        rw [relBase, dirname_concat, hrp]
        decide
      show (if (relBase (base ++ ["b.ts".data]) (base ++ ["sub".data, "a.ts".data])).head?
          = some '.'
        then relBase (base ++ ["b.ts".data]) (base ++ ["sub".data, "a.ts".data])
        else '.' :: '/' :: relBase (base ++ ["b.ts".data]) (base ++ ["sub".data, "a.ts".data])) = _
      rw [hrb, if_neg (by decide)]
    rw [newContentOf, hnp,
      subImports_match _ (show tryMatch ("from \"./a.js\"".data)
        = some ("./a.js".data, []) from by decide), subImports_nil,
      replImport, hres, htgt, hmr]
    decide
  · -- scenario 2
    have hnp : new_path_of (base ++ ["a.ts".data])
        [(base ++ ["a.ts".data], base ++ ["sub".data, "a.ts".data])]
        = base ++ ["sub".data, "a.ts".data] := by
      rw [new_path_of, lookupMove, if_pos rfl]
      rfl
    have hres : resolve_import (base ++ ["a.ts".data]) ("./b.js".data)
        = base ++ ["b.ts".data] := by
      show (if (swapSuffix jsS tsS ("./b.js".data)).head? = some '/'
          then normAbs (splitSlash (swapSuffix jsS tsS ("./b.js".data)))
          else normAbs (dirname (base ++ ["a.ts".data])
            ++ splitSlash (swapSuffix jsS tsS ("./b.js".data)))) = _
      rw [if_neg (by decide), dirname_concat,
        show splitSlash (swapSuffix jsS tsS ("./b.js".data))
          = [".".data, "b.ts".data] from by decide,
        normAbs, List.foldl_append, foldl_normStep_clean hbclean [], List.nil_append,
        show ([".".data, "b.ts".data] : List Str) = ('.' :: []) :: ["b.ts".data] from rfl,
        foldl_normStep_dot, List.foldl_cons, normStep_clean _ (by decide), List.foldl_nil]
    have htgt : new_path_of (base ++ ["b.ts".data])
        [(base ++ ["a.ts".data], base ++ ["sub".data, "a.ts".data])]
        = base ++ ["b.ts".data] := by
      rw [new_path_of, lookupMove, if_neg hb_ne_bts, lookupMove]
      rfl
    have hdir : dirname (base ++ ["sub".data, "a.ts".data]) = base ++ ["sub".data] := by
      rw [show base ++ ["sub".data, "a.ts".data]
        = (base ++ ["sub".data]) ++ ["a.ts".data] from by simp, dirname_concat]
    have hrs : relSegs (base ++ ["b.ts".data]) (base ++ ["sub".data])
        = [('.' :: '.' :: []), "b.ts".data] := by
      rw [relSegs, cpl_append_left,
        show commonPrefixLen ["sub".data] ["b.ts".data] = 0 from by decide,
        Nat.add_zero, List.drop_left]
      have hlen : (base ++ ["sub".data]).length - base.length = 1 := by
        simp
      rw [hlen]
      rfl
    have hrp : relpathStr (base ++ ["b.ts".data]) (base ++ ["sub".data])
        = ("../b.ts".data) := by
      show (if relSegs (base ++ ["b.ts".data]) (base ++ ["sub".data]) = []
        then ['.'] else render (relSegs (base ++ ["b.ts".data]) (base ++ ["sub".data]))) = _
      rw [hrs, if_neg (by decide)]
      decide
    have hmr : make_relative (base ++ ["sub".data, "a.ts".data]) (base ++ ["b.ts".data])
        = ("../b.js".data) := by
      have hrb : relBase (base ++ ["sub".data, "a.ts".data]) (base ++ ["b.ts".data])
          = ("../b.js".data) := by
        rw [relBase, hdir, hrp]
        decide
      show (if (relBase (base ++ ["sub".data, "a.ts".data]) (base ++ ["b.ts".data])).head?
          = some '.'
        then relBase (base ++ ["sub".data, "a.ts".data]) (base ++ ["b.ts".data])
        else '.' :: '/' :: relBase (base ++ ["sub".data, "a.ts".data]) (base ++ ["b.ts".data])) = _
      rw [hrb, if_pos (by decide)]
    rw [newContentOf, hnp,
      subImports_match _ (show tryMatch ("from \"./b.js\"".data)
        = some ("./b.js".data, []) from by decide), subImports_nil,
      replImport, hres, htgt, hmr]
    decide

/-- Witness for C2 at a concrete root. -/
theorem c2_scenarios_witness :
    newContentOf (["r".data, "src".data] ++ ["b.ts".data])
        [(["r".data, "src".data] ++ ["a.ts".data],
          ["r".data, "src".data] ++ ["sub".data, "a.ts".data])]
        ("from \"./a.js\"".data)
      = ("from \"./sub/a.js\"".data) :=
  (c2_scenarios ["r".data, "src".data] (by decide)).1

/-! ### Claims C8, C9, C10: the physical phase -/

theorem updatesOf_length (files : List (Path × Str)) (moves : Moves) :
    (updatesOf files moves).length
      = (files.filter fun fc =>
          decide (newContentOf fc.1 moves fc.2 ≠ fc.2 ∨ new_path_of fc.1 moves ≠ fc.1)).length := by
  induction files with
  | nil => rfl
  | cons fc rest ih =>
    by_cases hcond : newContentOf fc.1 moves fc.2 ≠ fc.2 ∨ new_path_of fc.1 moves ≠ fc.1
    · rw [updatesOf, List.filterMap_cons_some
          (b := (fc.1, new_path_of fc.1 moves, newContentOf fc.1 moves fc.2))
          (by rw [updateEntry, if_pos hcond])]
      simp only [List.filter_cons, decide_eq_true_eq]
      rw [if_pos hcond]
      simp only [List.length_cons]
      rw [show List.filterMap (updateEntry moves) rest = updatesOf rest moves from rfl, ih]
    · rw [updatesOf, List.filterMap_cons_none (by rw [updateEntry, if_neg hcond])]
      simp only [List.filter_cons, decide_eq_true_eq]
      rw [if_neg hcond]
      rw [show List.filterMap (updateEntry moves) rest = updatesOf rest moves from rfl, ih]

/-- C8 counterexample: one file `a.ts` with content `x` (no imports) moved to
`sub/a.ts`; the run performs one move and writes the byte-identical content
to the new location, and the summary line reports `Moved 1 files, updated
imports in 1 files.` — but the number of files whose import text changed is
`0`, so the second summary count is not the number of files with changed
content. -/
theorem c8_counterexample :
    runTrace [(["r".data, "src".data, "a.ts".data], ("x".data))]
        [(["r".data, "src".data, "a.ts".data],
          ["r".data, "src".data, "sub".data, "a.ts".data])]
        (fun _ => true)
      = [Effect.mkdirp (["r".data, "src".data, "sub".data]),
          Effect.gitmv (["r".data, "src".data, "a.ts".data])
            (["r".data, "src".data, "sub".data, "a.ts".data]),
          Effect.write (["r".data, "src".data, "sub".data, "a.ts".data]) ("x".data),
          Effect.summary 1 1] ∧
    ([(["r".data, "src".data, "a.ts".data], ("x".data))].filter fun fc : Path × Str =>
        decide (newContentOf fc.1
          [(["r".data, "src".data, "a.ts".data],
            ["r".data, "src".data, "sub".data, "a.ts".data])] fc.2 ≠ fc.2)).length = 0 := by
  decide

/-- C8 amended: on a successful run the final summary effect reports exactly
`len(moves)` (the number of move-mapping entries) and `len(updates)`; the
second count is the number of files whose content or location changed — not
merely the number of files with changed import text. -/
theorem c8_summary_counts (files : List (Path × Str)) (moves : Moves)
    (ok : Path × Path → Bool) (hok : (runMoves ok (sortMoves moves)).2 = []) :
    (runTrace files moves ok).getLast?
      = some (Effect.summary moves.length (updatesOf files moves).length) ∧
    (updatesOf files moves).length
      = (files.filter fun fc =>
          decide (newContentOf fc.1 moves fc.2 ≠ fc.2 ∨ new_path_of fc.1 moves ≠ fc.1)).length := by
  refine ⟨?_, updatesOf_length files moves⟩
  have hform : runTrace files moves ok
      = moveFx (runMoves ok (sortMoves moves)).1 (runMoves ok (sortMoves moves)).2
        ++ (((updatesOf files moves).map fun u => Effect.write u.2.1 u.2.2)
          ++ [Effect.summary moves.length (updatesOf files moves).length]) := by
    show (if (runMoves ok (sortMoves moves)).2 = []
      then moveFx (runMoves ok (sortMoves moves)).1 (runMoves ok (sortMoves moves)).2
        ++ ((updatesOf files moves).map fun u => Effect.write u.2.1 u.2.2)
        ++ [Effect.summary moves.length (updatesOf files moves).length]
      else moveFx (runMoves ok (sortMoves moves)).1 (runMoves ok (sortMoves moves)).2) = _
    rw [if_pos hok, List.append_assoc]
  rw [hform, List.getLast?_append_of_ne_nil _ (by simp),
    List.getLast?_append_of_ne_nil _ (by simp)]
  rfl

/-- Witness for C8 (amended) at a concrete successful run. -/
theorem c8_summary_counts_witness :
    (runTrace [(["r".data, "src".data, "a.ts".data], ("x".data))]
        [(["r".data, "src".data, "a.ts".data],
          ["r".data, "src".data, "sub".data, "a.ts".data])]
        (fun _ => true)).getLast?
      = some (Effect.summary 1
          (updatesOf [(["r".data, "src".data, "a.ts".data], ("x".data))]
            [(["r".data, "src".data, "a.ts".data],
              ["r".data, "src".data, "sub".data, "a.ts".data])]).length) :=
  (c8_summary_counts [(["r".data, "src".data, "a.ts".data], ("x".data))]
    [(["r".data, "src".data, "a.ts".data],
      ["r".data, "src".data, "sub".data, "a.ts".data])]
    (fun _ => true) (by decide)).1

/-! ### Claim C9 -/

theorem strLe_total : ∀ (x y : Str), strLe x y = true ∨ strLe y x = true
  | [], _ => Or.inl rfl
  | _ :: _, [] => Or.inr rfl
  | a :: as, b :: bs => by
    rw [strLe, strLe]
    rcases lt_trichotomy a b with h | h | h
    · left
      rw [if_pos h]
    · subst h
      simp only [if_neg (lt_irrefl a)]
      exact strLe_total as bs
    · right
      rw [if_pos h]

theorem strLe_trans : ∀ {x y z : Str}, strLe x y = true → strLe y z = true → strLe x z = true
  | [], _, _, _, _ => rfl
  | a :: as, [], z, h, _ => by
    rw [strLe] at h
    cases h
  | a :: as, b :: bs, [], _, h => by
    rw [strLe] at h
    cases h
  | a :: as, b :: bs, c :: cs, h1, h2 => by
    rw [strLe] at h1 h2 ⊢
    by_cases hab : a < b
    · by_cases hbc : b < c
      · rw [if_pos (lt_trans hab hbc)]
      · by_cases hcb : c < b
        · rw [if_neg hbc, if_pos hcb] at h2
          cases h2
        · have hbc' : b = c := le_antisymm (not_lt.1 hcb) (not_lt.1 hbc)
          rw [if_pos (hbc' ▸ hab)]
    · by_cases hba : b < a
      · rw [if_neg hab, if_pos hba] at h1
        cases h1
      · have hab' : a = b := le_antisymm (not_lt.1 hba) (not_lt.1 hab)
        subst hab'
        rw [if_neg hab, if_neg hba] at h1
        by_cases hac : a < c
        · rw [if_pos hac]
        · by_cases hca : c < a
          · rw [if_neg hac, if_pos hca] at h2
            cases h2
          · rw [if_neg hac, if_neg hca] at h2 ⊢
            exact strLe_trans h1 h2

instance : IsTotal (Path × Path) (fun a b => strLe (render a.1) (render b.1) = true) :=
  ⟨fun _ _ => strLe_total _ _⟩

instance : IsTrans (Path × Path) (fun a b => strLe (render a.1) (render b.1) = true) :=
  ⟨fun _ _ _ => strLe_trans⟩

theorem runMoves_take_drop (ok : Path × Path → Bool) :
    ∀ (ms : List (Path × Path)) (k : Nat) (hk : k < ms.length),
    (∀ i (hi : i < k), ok (ms.get ⟨i, Nat.lt_trans hi hk⟩) = true) →
    ok (ms.get ⟨k, hk⟩) = false →
    runMoves ok ms = (ms.take k, ms.drop k)
  | [], k, hk, _, _ => absurd hk (by simp)
  | m :: t, 0, hk, _, hfail => by
    rw [runMoves, if_neg (by simpa using hfail)]
    rfl
  | m :: t, j + 1, hk, hpre, hfail => by
    have hm : ok m = true := hpre 0 (Nat.succ_pos j)
    rw [runMoves, if_pos hm]
    have hk' : j < t.length := by
      simpa using Nat.lt_of_succ_lt_succ hk
    have ih := runMoves_take_drop ok t j hk'
      (fun i hi => hpre (i + 1) (Nat.succ_lt_succ hi)) hfail
    rw [ih]
    rfl

/-- C9: the move loop processes the mapping's entries sorted by origin path
(the processed list is sorted by the rendered origin string), and when the
`git mv` for the `k`-th entry in that order fails, the run stops there: the
entries strictly before `k` have been applied, and the `k`-th entry and
everything after it form the unprocessed remainder (nothing after `k` is
attempted). -/
theorem c9_move_abort (moves : Moves) (ok : Path × Path → Bool) (k : Nat)
    (hk : k < (sortMoves moves).length)
    (hpre : ∀ i (hi : i < k), ok ((sortMoves moves).get ⟨i, Nat.lt_trans hi hk⟩) = true)
    (hfail : ok ((sortMoves moves).get ⟨k, hk⟩) = false) :
    (sortMoves moves).Sorted (fun a b => strLe (render a.1) (render b.1) = true) ∧
    runMoves ok (sortMoves moves) = ((sortMoves moves).take k, (sortMoves moves).drop k) :=
  ⟨List.sorted_insertionSort _ moves, runMoves_take_drop ok (sortMoves moves) k hk hpre hfail⟩

/-- Witness for C9: two moves in reverse lexicographic order; the move of the
second entry in sorted order (`b.ts`) fails, the first (`a.ts`) is applied. -/
theorem c9_move_abort_witness :
    runMoves (fun m => decide (m.1 = ["r".data, "a.ts".data]))
        (sortMoves [(["r".data, "b.ts".data], ["r".data, "s".data, "b.ts".data]),
          (["r".data, "a.ts".data], ["r".data, "s".data, "a.ts".data])])
      = ((sortMoves [(["r".data, "b.ts".data], ["r".data, "s".data, "b.ts".data]),
          (["r".data, "a.ts".data], ["r".data, "s".data, "a.ts".data])]).take 1,
        (sortMoves [(["r".data, "b.ts".data], ["r".data, "s".data, "b.ts".data]),
          (["r".data, "a.ts".data], ["r".data, "s".data, "a.ts".data])]).drop 1) :=
  (c9_move_abort [(["r".data, "b.ts".data], ["r".data, "s".data, "b.ts".data]),
      (["r".data, "a.ts".data], ["r".data, "s".data, "a.ts".data])]
    (fun m => decide (m.1 = ["r".data, "a.ts".data])) 1 (by decide)
    (by decide) (by decide)).2

/-! ### Claim C10 -/

theorem moveFx_not_write {applied rest : List (Path × Path)} {e : Effect}
    (he : e ∈ moveFx applied rest) : e.isWrite = false := by
  rw [moveFx.eq_def] at he
  rcases List.mem_append.1 he with h | h
  · obtain ⟨m, _, hem⟩ := List.mem_flatMap.1 h
    rcases List.mem_cons.1 hem with rfl | hem
    · rfl
    · rcases List.mem_cons.1 hem with rfl | hem
      · rfl
      · simp at hem
  · cases rest with
    | nil => simp at h
    | cons m t =>
      rcases List.mem_cons.1 h with rfl | h
      · rfl
      · simp at h

theorem moveFx_length_writes_after {updates : List (Path × Path × Str)} {mvd upd : Nat}
    {e : Effect}
    (he : e ∈ (updates.map fun u => Effect.write u.2.1 u.2.2) ++ [Effect.summary mvd upd]) :
    e.isGitmv = false := by
  rcases List.mem_append.1 he with h | h
  · obtain ⟨u, _, rfl⟩ := List.mem_map.1 h
    rfl
  · have := List.mem_singleton.1 h
    subst this
    rfl

/-- C10: every file-content write happens strictly after every
history-preserving move: if any move fails, the trace contains no write
effect at all (the raised error aborts the run before step 3), and in every
trace each `git mv` effect precedes each write effect. -/
theorem c10_writes_after_moves (files : List (Path × Str)) (moves : Moves)
    (ok : Path × Path → Bool) :
    ((runMoves ok (sortMoves moves)).2 ≠ [] →
      ∀ e ∈ runTrace files moves ok, e.isWrite = false) ∧
    (∀ (i j : Nat) (hi : i < (runTrace files moves ok).length)
        (hj : j < (runTrace files moves ok).length),
      ((runTrace files moves ok).get ⟨i, hi⟩).isGitmv = true →
      ((runTrace files moves ok).get ⟨j, hj⟩).isWrite = true → i < j) := by
  have hfail_form : (runMoves ok (sortMoves moves)).2 ≠ [] →
      runTrace files moves ok
        = moveFx (runMoves ok (sortMoves moves)).1 (runMoves ok (sortMoves moves)).2 := by
    intro h
    show (if (runMoves ok (sortMoves moves)).2 = []
      then moveFx (runMoves ok (sortMoves moves)).1 (runMoves ok (sortMoves moves)).2
        ++ ((updatesOf files moves).map fun u => Effect.write u.2.1 u.2.2)
        ++ [Effect.summary moves.length (updatesOf files moves).length]
      else moveFx (runMoves ok (sortMoves moves)).1 (runMoves ok (sortMoves moves)).2) = _
    rw [if_neg h]
  have hnowrite : (runMoves ok (sortMoves moves)).2 ≠ [] →
      ∀ e ∈ runTrace files moves ok, e.isWrite = false := by
    intro h e he
    rw [hfail_form h] at he
    exact moveFx_not_write he
  refine ⟨hnowrite, ?_⟩
  by_cases hok : (runMoves ok (sortMoves moves)).2 = []
  · have hform : runTrace files moves ok
        = moveFx (runMoves ok (sortMoves moves)).1 (runMoves ok (sortMoves moves)).2
          ++ (((updatesOf files moves).map fun u => Effect.write u.2.1 u.2.2)
            ++ [Effect.summary moves.length (updatesOf files moves).length]) := by
      show (if (runMoves ok (sortMoves moves)).2 = []
        then moveFx (runMoves ok (sortMoves moves)).1 (runMoves ok (sortMoves moves)).2
          ++ ((updatesOf files moves).map fun u => Effect.write u.2.1 u.2.2)
          ++ [Effect.summary moves.length (updatesOf files moves).length]
        else moveFx (runMoves ok (sortMoves moves)).1 (runMoves ok (sortMoves moves)).2) = _
      rw [if_pos hok, List.append_assoc]
    rw [hform]
    intro i j hi hj hgit hwrite
    have hilt : i < (moveFx (runMoves ok (sortMoves moves)).1
        (runMoves ok (sortMoves moves)).2).length := by
      by_contra hile
      rw [List.get_eq_getElem, List.getElem_append_right (Nat.le_of_not_lt hile)] at hgit
      have hmem := List.getElem_mem (l := ((updatesOf files moves).map
          fun u => Effect.write u.2.1 u.2.2)
        ++ [Effect.summary moves.length (updatesOf files moves).length])
        (n := i - (moveFx (runMoves ok (sortMoves moves)).1
          (runMoves ok (sortMoves moves)).2).length) (by
          rw [List.length_append] at hi
          omega)
      rw [moveFx_length_writes_after hmem] at hgit
      cases hgit
    have hjge : ¬ j < (moveFx (runMoves ok (sortMoves moves)).1
        (runMoves ok (sortMoves moves)).2).length := by
      intro hjlt
      rw [List.get_eq_getElem, List.getElem_append_left hjlt] at hwrite
      have hmem := List.getElem_mem (l := moveFx (runMoves ok (sortMoves moves)).1
        (runMoves ok (sortMoves moves)).2) hjlt
      rw [moveFx_not_write hmem] at hwrite
      cases hwrite
    omega
  · intro i j hi hj hgit hwrite
    have hmem : (runTrace files moves ok).get ⟨j, hj⟩ ∈ runTrace files moves ok := by
      rw [List.get_eq_getElem]
      exact List.getElem_mem hj
    have := hnowrite hok _ hmem
    rw [hwrite] at this
    cases this

/-- Witness for C10 at a concrete failing run (the single move fails): the
trace contains only the attempted directory creation, no write. -/
theorem c10_writes_after_moves_witness :
    Effect.isWrite (Effect.mkdirp (["r".data, "src".data, "sub".data])) = false :=
  (c10_writes_after_moves [(["r".data, "src".data, "a.ts".data], ("x".data))]
    [(["r".data, "src".data, "a.ts".data], ["r".data, "src".data, "sub".data, "a.ts".data])]
    (fun _ => false)).1 (by decide)
    (Effect.mkdirp (["r".data, "src".data, "sub".data])) (by decide)

end MoveFiles
